import Mathlib

/-!
Verification of the color-catalog merge pipeline (`fetch_more_colors.py`)
and the generated nearest-color matcher (`getColorName` in the emitted
Kotlin footer).  Strings are modelled as `List Char`; Python integers as
`Int`/`Nat`.  ASCII semantics are used for the character-class and
case-mapping functions (all inputs appearing in the theorems are ASCII);
Python's `str.lower`, `str.title`, `int(_, 16)`, `str.strip` and the
regular-expression character classes are modelled accordingly.
-/

/-! ### Character classes (ASCII, by code point) -/

/-- Whitespace as used by Python's `str.strip`, `int(...)` and `re` `\s`
(ASCII part): space, tab, newline, carriage return, vertical tab, form feed. -/
def pyWs (c : Char) : Bool :=
  c.toNat = 32 || c.toNat = 9 || c.toNat = 10 || c.toNat = 13 || c.toNat = 11 || c.toNat = 12

/-- Decimal digit, as matched by `\d` (ASCII). -/
def pyDigit (c : Char) : Bool := 48 ≤ c.toNat && c.toNat ≤ 57

/-- Hexadecimal digit as accepted by Python `int(_, 16)`. -/
def isHexDigit (c : Char) : Bool :=
  (48 ≤ c.toNat && c.toNat ≤ 57) || (97 ≤ c.toNat && c.toNat ≤ 102) ||
    (65 ≤ c.toNat && c.toNat ≤ 70)

/-- Lowercase hexadecimal digit (`0`-`9`, `a`-`f`). -/
def isLowerHex (c : Char) : Bool :=
  (48 ≤ c.toNat && c.toNat ≤ 57) || (97 ≤ c.toNat && c.toNat ≤ 102)

/-- ASCII letter. -/
def pyAlpha (c : Char) : Bool :=
  (65 ≤ c.toNat && c.toNat ≤ 90) || (97 ≤ c.toNat && c.toNat ≤ 122)

/-- Numeric value of a hexadecimal digit. -/
def hexVal (c : Char) : Nat :=
  if 48 ≤ c.toNat && c.toNat ≤ 57 then c.toNat - 48
  else if 97 ≤ c.toNat then c.toNat - 87
  else c.toNat - 55

/-- Lowercase hexadecimal digit character for a value below 16. -/
def hexChar (d : Nat) : Char :=
  if d < 10 then Char.ofNat (48 + d) else Char.ofNat (87 + d)

/-! ### Python `int(s, 16)` -/

/-- `str.strip()`: remove leading and trailing whitespace. -/
def pyStrip (s : List Char) : List Char :=
  ((s.dropWhile pyWs).reverse.dropWhile pyWs).reverse

/-- Tail of a base-16 digit run with single underscores allowed between digits. -/
def hexCoreTail (acc : Nat) : List Char → Option Nat
  | [] => some acc
  | c :: cs =>
      if c = '_' then
        match cs with
        | [] => none
        | c2 :: cs2 => if isHexDigit c2 then hexCoreTail (acc * 16 + hexVal c2) cs2 else none
      else if isHexDigit c then hexCoreTail (acc * 16 + hexVal c) cs else none

/-- A nonempty base-16 digit run (`digit (('_')? digit)*`). -/
def hexCore : List Char → Option Nat
  | [] => none
  | c :: cs => if isHexDigit c then hexCoreTail (hexVal c) cs else none

/-- Unsigned part of a Python base-16 integer literal: an optional
`0x`/`0X` prefix (optionally followed by one underscore) and a digit run. -/
def pyUnsignedHex (s : List Char) : Option Nat :=
  match s with
  | c0 :: x :: rest =>
      if c0 = '0' && (x = 'x' || x = 'X') then
        match rest with
        | [] => none
        | r0 :: rest2 => if r0 = '_' then hexCore rest2 else hexCore (r0 :: rest2)
      else hexCore (c0 :: x :: rest)
  | _ => hexCore s

/-- Python `int(s, 16)`: strip whitespace, optional sign, then the
unsigned literal.  `none` models the `ValueError`. -/
def pyIntHex (s : List Char) : Option Int :=
  match pyStrip s with
  | [] => none
  | c :: rest =>
      if c = '+' then (pyUnsignedHex rest).map (fun n => (n : Int))
      else if c = '-' then (pyUnsignedHex rest).map (fun n => -(n : Int))
      else (pyUnsignedHex (c :: rest)).map (fun n => (n : Int))

/-- Python slice `s[i:j]` for `0 ≤ i ≤ j`. -/
def pySlice (s : List Char) (i j : Nat) : List Char := (s.take j).drop i

/-- `hex_color.lstrip('#')`: removes ALL leading `#` characters. -/
def lstripHash (s : List Char) : List Char := s.dropWhile (fun c => c = '#')

/-- `hex_to_rgb`: strip leading `#`s and parse the three slices
`[0:2]`, `[2:4]`, `[4:6]` with `int(_, 16)`.  `none` models the
exception raised when any slice fails to parse. -/
def hexToRgb (s : List Char) : Option (Int × Int × Int) :=
  let t := lstripHash s
  match pyIntHex (pySlice t 0 2), pyIntHex (pySlice t 2 4), pyIntHex (pySlice t 4 6) with
  | some r, some g, some b => some (r, g, b)
  | _, _, _ => none

/-- The remaining string is exactly six hexadecimal digits. -/
def sixHex (t : List Char) : Bool := t.length = 6 && t.all isHexDigit

/-- Value of a two-hex-digit slice (used to state what `hex_to_rgb` returns). -/
def hexPairVal : List Char → Int
  | [a, b] => 16 * (hexVal a : Int) + (hexVal b : Int)
  | _ => 0

example : hexToRgb ("#ff69b4".data) = some (255, 105, 180) := by decide
example : hexToRgb ("abcde".data) = some (171, 205, 14) := by decide
example : hexToRgb ("##ff0000".data) = some (255, 0, 0) := by decide
example : hexToRgb ("zzzzzz".data) = none := by decide
example : hexToRgb ("abcd".data) = none := by decide

/-! ### Case mapping: `str.lower` and `str.title` (ASCII) -/

/-- `str.lower()` (ASCII). -/
def pyLower (s : List Char) : List Char := s.map Char.toLower

/-- Worker for `str.title()`: Python tracks whether the previous character
was cased; a letter after a non-cased character is uppercased, a letter
after a cased character is lowercased, non-letters pass through. -/
def pyTitleGo : Bool → List Char → List Char
  | _, [] => []
  | prevCased, c :: cs =>
      if pyAlpha c then
        (if prevCased then c.toLower else c.toUpper) :: pyTitleGo true cs
      else
        c :: pyTitleGo false cs

/-- Python `str.title()` (ASCII). -/
def pyTitle (s : List Char) : List Char := pyTitleGo false s

/-- Modelled from the spec: title-casing that uppercases the first character
of each whitespace-separated word and lowercases the rest of the word
(words are delimited only by whitespace).  Stated for comparison with
the source's `str.title()`. -/
def specTitleWs : Bool → List Char → List Char
  | _, [] => []
  | atStart, c :: cs =>
      if pyWs c then c :: specTitleWs true cs
      else (if atStart then c.toUpper else c.toLower) :: specTitleWs false cs

/-- Re-casing of one character given the preceding character (if any):
positional description of Python `str.title()`. -/
def recaseAfter (p : Option Char) (c : Char) : Char :=
  if pyAlpha c then
    match p with
    | some q => if pyAlpha q then c.toLower else c.toUpper
    | none => c.toUpper
  else c

/-- Positional description of `str.title()`: each character re-cased
according to its predecessor. -/
def titleBySep (s : List Char) : List Char :=
  (List.zip (none :: s.map some) s).map (fun pc => recaseAfter pc.1 pc.2)

example : pyTitle ("o'hara".data) = "O'Hara".data := by decide
example : specTitleWs true ("o'hara".data) = "O'hara".data := by decide
example : pyTitle ("hot pink".data) = "Hot Pink".data := by decide

/-! ### Catalog entries and the merge/dedup engine -/

/-- One catalog entry: `(name, r, g, b)` as appended to `final_colors`. -/
structure NamedColor where
  name : List Char
  r : Int
  g : Int
  b : Int
deriving DecidableEq, Repr

/-- Lowercase hex digits of a Nat (no padding), most significant first. -/
def natHexAux : Nat → Nat → List Char
  | 0, _ => []
  | f + 1, n => if n = 0 then [] else natHexAux f (n / 16) ++ [hexChar (n % 16)]

/-- Python `"{:x}".format(n)` for `n ≥ 0`. -/
def natHex (n : Nat) : List Char := if n = 0 then ['0'] else natHexAux n n

/-- Python `"{:02x}".format(i)`: zero-pad to width 2 (sign included in the width). -/
def pyFmt02x (i : Int) : List Char :=
  if i < 0 then '-' :: (List.replicate (1 - (natHex i.natAbs).length) '0' ++ natHex i.natAbs)
  else List.replicate (2 - (natHex i.toNat).length) '0' ++ natHex i.toNat

/-- The six-character key `rrggbb` derived from an entry's components. -/
def normHex (e : NamedColor) : List Char := pyFmt02x e.r ++ pyFmt02x e.g ++ pyFmt02x e.b

/-- `"#{:02x}{:02x}{:02x}".format(r, g, b)` — the string added to `seen_hex`
for an existing entry. -/
def pyFmtHex (e : NamedColor) : List Char := '#' :: normHex e

example : pyFmtHex ⟨"Red".data, 255, 0, 0⟩ = "#ff0000".data := by decide
example : pyFmt02x (-10) = "-a".data := by decide
example : pyFmt02x 300 = "12c".data := by decide

/-- State of the merge loop: output catalog, `seen_hex`, `seen_names`,
`added_count`.  The Python sets are modelled as lists used only through
membership. -/
structure MState where
  catalog : List NamedColor
  seenHex : List (List Char)
  seenNames : List (List Char)
  added : Nat
deriving Repr

/-- Body of the `for item in parsed_new_colors` loop: skip when the raw
hex string is in `seen_hex`, skip when the lowercased title-cased name is
in `seen_names`, otherwise parse the hex (skipping on failure) and admit. -/
def mergeStep (st : MState) (rec : List Char × List Char) : MState :=
  let hex := rec.2
  let clean := pyTitle rec.1
  if hex ∈ st.seenHex then st
  else if pyLower clean ∈ st.seenNames then st
  else
    match hexToRgb hex with
    | some (rv, gv, bv) =>
        { catalog := st.catalog ++ [⟨clean, rv, gv, bv⟩],
          seenHex := hex :: st.seenHex,
          seenNames := pyLower clean :: st.seenNames,
          added := st.added + 1 }
    | none => st

/-- The `for name, r, g, b in existing_matches` seeding loop. -/
def seedStep (st : MState) (e : NamedColor) : MState :=
  { catalog := st.catalog ++ [e],
    seenHex := pyFmtHex e :: st.seenHex,
    seenNames := pyLower e.name :: st.seenNames,
    added := st.added }

/-- State after seeding from the existing catalog. -/
def seedState (existing : List NamedColor) : MState :=
  existing.foldl seedStep ⟨[], [], [], 0⟩

/-- The merge/dedup engine: seed with the existing entries, then fold the
external records; returns the final catalog and `added_count`. -/
def merge (existing : List NamedColor) (ext : List (List Char × List Char)) :
    List NamedColor × Nat :=
  let st := ext.foldl mergeStep (seedState existing)
  (st.catalog, st.added)

example :
    merge [⟨"Crimson".data, 220, 20, 60⟩]
      [("crimson".data, "#dc143c".data), ("Green".data, "#00ff00".data)] =
    ([⟨"Crimson".data, 220, 20, 60⟩, ⟨"Green".data, 0, 255, 0⟩], 1) := by decide

example :
    merge [] [("Aa".data, "#FF0000".data), ("Bb".data, "#ff0000".data)] =
    ([⟨"Aa".data, 255, 0, 0⟩, ⟨"Bb".data, 255, 0, 0⟩], 2) := by decide

example :
    merge [⟨"Red".data, 255, 0, 0⟩] [("Scarlet".data, "#FF0000".data)] =
    ([⟨"Red".data, 255, 0, 0⟩, ⟨"Scarlet".data, 255, 0, 0⟩], 1) := by decide

example :
    merge [⟨"A".data, 255, 0, 0⟩] [("A".data, "#FF0000".data), ("B".data, "#FF0000".data)] =
    ([⟨"A".data, 255, 0, 0⟩, ⟨"B".data, 255, 0, 0⟩], 1) := by decide

example :
    merge [] [("A".data, "#FF0000".data), ("B".data, "#FF0000".data)] =
    ([⟨"A".data, 255, 0, 0⟩], 1) := by decide

/-! ### External data and the flattening ("Adapt structure") step -/

/-- JSON-decoded Python value, as far as the flattening step inspects it. -/
inductive PyVal where
  | vstr : List Char → PyVal
  | vint : Int → PyVal
  | vlist : List PyVal → PyVal
  | vdict : List (List Char × PyVal) → PyVal
  | vnone : PyVal
deriving Repr

/-- Python truthiness of the modelled values. -/
def truthy : PyVal → Bool
  | .vstr s => !s.isEmpty
  | .vint n => n != 0
  | .vlist l => !l.isEmpty
  | .vdict d => !d.isEmpty
  | .vnone => false

/-- `dict.get(key)`: the value for the first matching key, else `None`. -/
def dget (d : List (List Char × PyVal)) (k : List Char) : PyVal :=
  match d.find? (fun kv => kv.1 == k) with
  | some kv => kv.2
  | none => .vnone

/-- Whether a value is a mapping (the only values with a `.get` method). -/
def isDict : PyVal → Bool
  | .vdict _ => true
  | _ => false

/-- The raised `AttributeError` when `.get` is called on a non-mapping. -/
inductive PyError where
  | attributeError : PyError
deriving DecidableEq, Repr

/-- The `for item in new_colors_data` loop of the list branch: a non-mapping
item raises `AttributeError`; otherwise records whose `name` or `hex` is
falsy (missing, `None` or empty) are dropped. -/
def adaptList : List PyVal → Except PyError (List (PyVal × PyVal))
  | [] => .ok []
  | item :: rest =>
      match item with
      | .vdict d =>
          let n := dget d ("name".data)
          let h := dget d ("hex".data)
          if truthy n && truthy h then
            match adaptList rest with
            | .ok rs => .ok ((n, h) :: rs)
            | .error e => .error e
          else adaptList rest
      | _ => .error .attributeError

/-- The whole "Adapt structure" step: a list is flattened with filtering,
a mapping contributes every `(value as name, key as hex)` pair unfiltered,
and any other payload yields no records. -/
def adapt : PyVal → Except PyError (List (PyVal × PyVal))
  | .vlist items => adaptList items
  | .vdict d => .ok (d.map (fun kv => (kv.2, .vstr kv.1)))
  | _ => .ok []

example :
    adapt (.vdict [("#123456".data, .vstr [])]) =
      .ok [(.vstr [], .vstr ("#123456".data))] := rfl
example : merge [] [([], "#123456".data)] = ([⟨[], 18, 52, 86⟩], 1) := by decide
example : adapt (.vlist [.vint 42]) = .error .attributeError := rfl
example :
    adapt (.vlist [.vdict [("name".data, .vstr ("X".data))]]) = .ok [] := rfl

/-! ### The generated nearest-name matcher (`getColorName`) -/

/-- Squared Euclidean distance, `calculateDistance` without the final
`sqrt`: the generated code compares `sqrt` values with strict `<`, and
`Real.sqrt` is strictly monotone on squared distances, so folding over
squared distances is an exact model (`Double.MAX_VALUE`, the initial
minimum, exceeds every representable distance and is modelled by `none`). -/
def distSq (r g b : Int) (e : NamedColor) : Int :=
  (e.r - r) ^ 2 + (e.g - g) ^ 2 + (e.b - b) ^ 2

/-- One iteration of the `for (namedColor in colorList)` loop. -/
def gcnStep (r g b : Int) (st : Option Int × List Char) (e : NamedColor) :
    Option Int × List Char :=
  let d := distSq r g b e
  match st.1 with
  | none => (some d, e.name)
  | some m => if d < m then (some d, e.name) else st

/-- `getColorName`: fold the comparison loop from the sentinel state. -/
def getColorName (catalog : List NamedColor) (r g b : Int) : List Char :=
  (catalog.foldl (gcnStep r g b) (none, "Unknown".data)).2

example :
    getColorName [⟨"Red".data, 255, 0, 0⟩, ⟨"Black".data, 0, 0, 0⟩] 250 10 10 =
      "Red".data := by decide
example :
    getColorName [⟨"Red".data, 255, 0, 0⟩, ⟨"Black".data, 0, 0, 0⟩] 0 0 0 =
      "Black".data := by decide
example : getColorName [] 5 5 5 = "Unknown".data := by decide
example : getColorName [⟨"Unknown".data, 9, 9, 9⟩] 0 0 0 = "Unknown".data := by decide

/-! ### The serializer (Catalog Codec, serialize half) -/

/-- Decimal digits of a Nat, most significant first. -/
def natDecAux : Nat → Nat → List Char
  | 0, _ => []
  | f + 1, n => if n = 0 then [] else natDecAux f (n / 10) ++ [Char.ofNat (48 + n % 10)]

/-- Decimal representation of a Nat. -/
def natDec (n : Nat) : List Char := if n = 0 then ['0'] else natDecAux n n

/-- Python decimal rendering of an int (as interpolated by the f-string). -/
def intDec (i : Int) : List Char := if i < 0 then '-' :: natDec i.natAbs else natDec i.toNat

/-- `name.replace('"', '\"')`: Python's `'\"'` is just `'"'`, so each
double quote is replaced by itself. -/
def safeName (s : List Char) : List Char := s.map (fun c => if c = '"' then '"' else c)

/-- One generated list item: `        NamedColor("name", r, g, b)`. -/
def entryLine (e : NamedColor) : List Char :=
  ("        NamedColor(\"".data) ++ safeName e.name ++ ("\", ".data) ++ intDec e.r ++
    (", ".data) ++ intDec e.g ++ (", ".data) ++ intDec e.b ++ (")".data)

/-- `",\n".join(list_items)`. -/
def joinLines : List (List Char) → List Char
  | [] => []
  | [l] => l
  | l :: ls => l ++ ',' :: '\n' :: joinLines ls

/-- The fixed header boilerplate emitted before the entry list. -/
def headerStr : String := "package com.alexdremov.notate.util\n\nimport android.graphics.Color\nimport kotlin.math.pow\nimport kotlin.math.sqrt\n\nobject ColorNamer \x7b\n\n    data class NamedColor(val name: String, val r: Int, val g: Int, val b: Int) \x7b\n        val colorInt: Int = Color.rgb(r, g, b)\n    \x7d\n\n    // A curated list of colors for natural language description.\n    // Sources: Standard Web Colors, Material Design, Presets, XKCD, and Color-Name-Lists.\n    private val colorList = listOf(\n"

/-- The fixed footer boilerplate (the generated matcher source). -/
def footerStr : String := "    )\n\n    /**\n     * Finds the closest natural language name for the given color using Euclidean distance in RGB space.\n     * @param color The input color.\n     * @return The name of the closest color in the curated list.\n     */\n    fun getColorName(color: Int): String \x7b\n        val r = Color.red(color)\n        val g = Color.green(color)\n        val b = Color.blue(color)\n\n        var minDistance = Double.MAX_VALUE\n        var closestColorName = \"Unknown\"\n\n        for (namedColor in colorList) \x7b\n            val distance = calculateDistance(r, g, b, namedColor.r, namedColor.g, namedColor.b)\n            if (distance < minDistance) \x7b\n                minDistance = distance\n                closestColorName = namedColor.name\n            \x7d\n        \x7d\n\n        return closestColorName\n    \x7d\n\n    private fun calculateDistance(r1: Int, g1: Int, b1: Int, r2: Int, g2: Int, b2: Int): Double \x7b\n        // Simple Euclidean distance\n        return sqrt((r2 - r1).toDouble().pow(2) + (g2 - g1).toDouble().pow(2) + (b2 - b1).toDouble().pow(2))\n    \x7d\n\x7d\n"

/-- `full_content = header + ",\n".join(list_items) + "\n" + footer`. -/
def fullContent (catalog : List NamedColor) : List Char :=
  headerStr.data ++ joinLines (catalog.map entryLine) ++ '\n' :: footerStr.data

/-! ### The extractor (regex scan)

The pattern `NamedColor\s*\(\s*"([^"]+)"\s*,\s*(\d+)\s*,\s*(\d+)\s*,\s*(\d+)\s*\)`
is matched by a deterministic scanner: every repeated character class in
the pattern excludes the character that must follow it, so greedy
matching without backtracking coincides with the regex semantics.
`findall` tries an anchored match at each position from the left and
resumes after the end of each match. -/

/-- Result of an anchored match attempt: a match with captures and the
rest of the input, a definite mismatch, or running out of input. -/
inductive MRes (α : Type) where
  | found : α → List Char → MRes α
  | nomatch : MRes α
  | eof : MRes α
deriving Repr

/-- Sequencing of match stages. -/
def MRes.andThen : MRes α → (α → List Char → MRes β) → MRes β
  | .found a rest, f => f a rest
  | .nomatch, _ => .nomatch
  | .eof, _ => .eof

/-- Match a literal string. -/
def litStage : List Char → List Char → MRes Unit
  | [], rest => .found () rest
  | _ :: _, [] => .eof
  | p :: ps, c :: cs => if c = p then litStage ps cs else .nomatch

/-- `\s*` followed by a required (non-whitespace) character. -/
def wsThen (t : Char) (l : List Char) : MRes Unit :=
  match l.dropWhile pyWs with
  | [] => .eof
  | c :: cs => if c = t then .found () cs else .nomatch

/-- `(p+)` followed by a required character outside the class. -/
def plusThen (p : Char → Bool) (t : Char) (l : List Char) : MRes (List Char) :=
  match l.dropWhile p with
  | [] => .eof
  | c :: cs =>
      if (l.takeWhile p).isEmpty then .nomatch
      else if c = t then .found (l.takeWhile p) cs else .nomatch

/-- Numeric value of a captured digit group (`int` of the digits, base 10). -/
def decVal (ds : List Char) : Nat := ds.foldl (fun a c => 10 * a + (c.toNat - 48)) 0

/-- `\s*(\d+)\s*` followed by a required character. -/
def numThen (t : Char) (l : List Char) : MRes Nat :=
  let l1 := l.dropWhile pyWs
  match l1.dropWhile pyDigit with
  | [] => .eof
  | c :: cs =>
      if (l1.takeWhile pyDigit).isEmpty then .nomatch
      else
        match (c :: cs).dropWhile pyWs with
        | [] => .eof
        | c2 :: cs2 =>
            if c2 = t then .found (decVal (l1.takeWhile pyDigit)) cs2 else .nomatch

/-- Anchored attempt of the whole extraction pattern. -/
def matchAttempt (l : List Char) : MRes (List Char × Nat × Nat × Nat) :=
  (litStage ("NamedColor".data) l).andThen fun _ l1 =>
  (wsThen '(' l1).andThen fun _ l2 =>
  (wsThen '"' l2).andThen fun _ l3 =>
  (plusThen (fun c => c != '"') '"' l3).andThen fun nm l4 =>
  (wsThen ',' l4).andThen fun _ l5 =>
  (numThen ',' l5).andThen fun rv l6 =>
  (numThen ',' l6).andThen fun gv l7 =>
  (numThen ')' l7).andThen fun bv l8 =>
  .found (nm, rv, gv, bv) l8

/-- An extracted match as an entry; the pipeline converts the captured
digit strings with `int(...)` when it seeds the merge. -/
def toEntry (t : List Char × Nat × Nat × Nat) : NamedColor :=
  ⟨t.1, (t.2.1 : Int), (t.2.2.1 : Int), (t.2.2.2 : Int)⟩

/-- `findall`: try an anchored match at every position, left to right,
resuming after each match.  `fuel` bounds the recursion; `extract`
supplies the input length, which suffices. -/
def scanAux : Nat → List Char → List NamedColor
  | 0, _ => []
  | f + 1, l =>
      match matchAttempt l with
      | .found e t => toEntry e :: scanAux f t
      | _ =>
          match l with
          | [] => []
          | _ :: cs => scanAux f cs

/-- `pattern.findall(text)`, each match read back as an entry. -/
def extract (l : List Char) : List NamedColor := scanAux l.length l

set_option maxRecDepth 10000

example :
    extract (fullContent [⟨"Hot Pink".data, 255, 105, 180⟩, ⟨"Black".data, 0, 0, 0⟩]) =
      [⟨"Hot Pink".data, 255, 105, 180⟩, ⟨"Black".data, 0, 0, 0⟩] := by decide

example : extract (fullContent [⟨"a\"b".data, 1, 2, 3⟩]) = [] := by decide

example : extract (fullContent []) = [] := by decide

/-! ## Helper lemmas: character classes -/

theorem isHexDigit_not_ws {c : Char} (h : isHexDigit c = true) : pyWs c = false := by
  simp [isHexDigit] at h
  simp [pyWs]
  omega

theorem isHexDigit_ne_plus {c : Char} (h : isHexDigit c = true) : c ≠ '+' := by
  intro hc; subst hc; exact absurd h (by decide)

theorem isHexDigit_ne_minus {c : Char} (h : isHexDigit c = true) : c ≠ '-' := by
  intro hc; subst hc; exact absurd h (by decide)

theorem isHexDigit_ne_x {c : Char} (h : isHexDigit c = true) : c ≠ 'x' := by
  intro hc; subst hc; exact absurd h (by decide)

theorem isHexDigit_ne_X {c : Char} (h : isHexDigit c = true) : c ≠ 'X' := by
  intro hc; subst hc; exact absurd h (by decide)

theorem isHexDigit_ne_uscore {c : Char} (h : isHexDigit c = true) : c ≠ '_' := by
  intro hc; subst hc; exact absurd h (by decide)

theorem isHexDigit_ne_hash {c : Char} (h : isHexDigit c = true) : c ≠ '#' := by
  intro hc; subst hc; exact absurd h (by decide)

theorem isLowerHex_isHexDigit {c : Char} (h : isLowerHex c = true) : isHexDigit c = true := by
  simp [isLowerHex] at h
  simp [isHexDigit]
  omega

/-! ## Helper lemmas: Python base-16 parsing -/

theorem pyStrip_pair {a b : Char} (ha : pyWs a = false) (hb : pyWs b = false) :
    pyStrip [a, b] = [a, b] := by
  simp [pyStrip, List.dropWhile, ha, hb]

theorem hexCore_pair {a b : Char} (ha : isHexDigit a = true) (hb : isHexDigit b = true) :
    hexCore [a, b] = some (hexVal a * 16 + hexVal b) := by
  show (if isHexDigit a = true then hexCoreTail (hexVal a) [b] else none) = _
  rw [if_pos ha]
  show (if b = '_' then _ else if isHexDigit b = true then
    hexCoreTail (hexVal a * 16 + hexVal b) [] else none) = _
  rw [if_neg (isHexDigit_ne_uscore hb), if_pos hb]
  rfl

theorem pyUnsignedHex_pair {a b : Char} (ha : isHexDigit a = true) (hb : isHexDigit b = true) :
    pyUnsignedHex [a, b] = some (hexVal a * 16 + hexVal b) := by
  show (if (a = '0' && (b = 'x' || b = 'X')) = true then _ else hexCore [a, b]) = _
  rw [if_neg (by simp [isHexDigit_ne_x hb, isHexDigit_ne_X hb]), hexCore_pair ha hb]

theorem pyIntHex_pair {a b : Char} (ha : isHexDigit a = true) (hb : isHexDigit b = true) :
    pyIntHex [a, b] = some ((hexVal a * 16 + hexVal b : Nat) : Int) := by
  have hstrip : pyStrip [a, b] = [a, b] :=
    pyStrip_pair (isHexDigit_not_ws ha) (isHexDigit_not_ws hb)
  unfold pyIntHex
  rw [hstrip]
  show (if a = '+' then _ else if a = '-' then _
    else (pyUnsignedHex [a, b]).map (fun n => (n : Int))) = _
  rw [if_neg (isHexDigit_ne_plus ha), if_neg (isHexDigit_ne_minus ha),
    pyUnsignedHex_pair ha hb]
  rfl

theorem pyIntHex_nil : pyIntHex [] = none := rfl

theorem hexToRgb_six {s : List Char} (h6 : sixHex (lstripHash s) = true) :
    hexToRgb s = some (hexPairVal (pySlice (lstripHash s) 0 2),
      hexPairVal (pySlice (lstripHash s) 2 4), hexPairVal (pySlice (lstripHash s) 4 6)) := by
  simp only [sixHex, Bool.and_eq_true, decide_eq_true_eq, List.all_eq_true] at h6
  obtain ⟨hlen, hall⟩ := h6
  rcases hT : lstripHash s with _ | ⟨a, _ | ⟨b, _ | ⟨c, _ | ⟨d, _ | ⟨e, _ | ⟨f, tl⟩⟩⟩⟩⟩⟩ <;>
    rw [hT] at hlen hall <;> simp only [List.length] at hlen <;> try omega
  have htl : tl = [] := by
    have h0 : tl.length = 0 := by omega
    exact List.length_eq_zero.mp h0
  subst htl
  have ha := hall a (by simp)
  have hb := hall b (by simp)
  have hc := hall c (by simp)
  have hd := hall d (by simp)
  have he := hall e (by simp)
  have hf := hall f (by simp)
  show (match pyIntHex (pySlice (lstripHash s) 0 2), pyIntHex (pySlice (lstripHash s) 2 4),
      pyIntHex (pySlice (lstripHash s) 4 6) with
    | some r, some g, some b => some (r, g, b)
    | _, _, _ => none) = _
  rw [hT]
  show (match pyIntHex [a, b], pyIntHex [c, d], pyIntHex [e, f] with
    | some r, some g, some b => some (r, g, b)
    | _, _, _ => none) = _
  rw [pyIntHex_pair ha hb, pyIntHex_pair hc hd, pyIntHex_pair he hf]
  have e1 : hexPairVal (pySlice [a, b, c, d, e, f] 0 2) =
      16 * (hexVal a : Int) + (hexVal b : Int) := rfl
  have e2 : hexPairVal (pySlice [a, b, c, d, e, f] 2 4) =
      16 * (hexVal c : Int) + (hexVal d : Int) := rfl
  have e3 : hexPairVal (pySlice [a, b, c, d, e, f] 4 6) =
      16 * (hexVal e : Int) + (hexVal f : Int) := rfl
  rw [e1, e2, e3]
  show some _ = some _
  simp only [Option.some.injEq, Prod.mk.injEq]
  refine ⟨?_, ?_, ?_⟩ <;> push_cast <;> ring

theorem hexToRgb_short {s : List Char} (h4 : (lstripHash s).length ≤ 4) :
    hexToRgb s = none := by
  have hsl : pySlice (lstripHash s) 4 6 = [] := by
    have h1 : (lstripHash s).take 6 = lstripHash s :=
      List.take_of_length_le (by omega)
    simp [pySlice, h1, List.drop_of_length_le h4]
  show (match pyIntHex (pySlice (lstripHash s) 0 2), pyIntHex (pySlice (lstripHash s) 2 4),
      pyIntHex (pySlice (lstripHash s) 4 6) with
    | some r, some g, some b => some (r, g, b)
    | _, _, _ => none) = none
  rw [hsl, pyIntHex_nil]
  rcases pyIntHex (pySlice (lstripHash s) 0 2) with _ | r <;>
    rcases pyIntHex (pySlice (lstripHash s) 2 4) with _ | g <;> rfl

theorem mergeStep_skip_of_bad_hex (st : MState) (n h : List Char)
    (hbad : hexToRgb h = none) : mergeStep st (n, h) = st := by
  show (if h ∈ st.seenHex then st
    else if pyLower (pyTitle n) ∈ st.seenNames then st
    else match hexToRgb h with
      | some (rv, gv, bv) =>
          { catalog := st.catalog ++ [⟨pyTitle n, rv, gv, bv⟩],
            seenHex := h :: st.seenHex,
            seenNames := pyLower (pyTitle n) :: st.seenNames,
            added := st.added + 1 }
      | none => st) = st
  rw [hbad]
  split_ifs <;> rfl

/-- C5.  Hex validation, amended: `hex_to_rgb` strips ALL leading `#`
characters (not one); it succeeds on every remainder that is exactly six
hexadecimal digits, returning the base-16 values of the slices `[0:2]`,
`[2:4]`, `[4:6]`, and fails whenever the remainder is shorter than five
characters; but exactness is not required — remainders of length five, or
longer than six, or with signed/padded two-character slices can also be
accepted (see the counterexample).  A record whose hex fails to parse is
skipped without touching the catalog or the seen sets. -/
theorem claim5_hex_validation :
    ∀ s : List Char,
      (sixHex (lstripHash s) = true →
        hexToRgb s = some (hexPairVal (pySlice (lstripHash s) 0 2),
          hexPairVal (pySlice (lstripHash s) 2 4), hexPairVal (pySlice (lstripHash s) 4 6))) ∧
      ((lstripHash s).length ≤ 4 → hexToRgb s = none) ∧
      (∀ (st : MState) (n h : List Char), hexToRgb h = none → mergeStep st (n, h) = st) :=
  fun _ => ⟨hexToRgb_six, hexToRgb_short, mergeStep_skip_of_bad_hex⟩

/-- C5 witness: the theorem applied to `"#ff69b4"` and to a failing record. -/
theorem claim5_hex_validation_witness :
    sixHex (lstripHash ("#ff69b4".data)) = true ∧
      hexToRgb ("#ff69b4".data) = some (hexPairVal (pySlice (lstripHash ("#ff69b4".data)) 0 2),
        hexPairVal (pySlice (lstripHash ("#ff69b4".data)) 2 4),
        hexPairVal (pySlice (lstripHash ("#ff69b4".data)) 4 6)) ∧
      mergeStep ⟨[], [], [], 0⟩ ("X".data, "zz".data) = ⟨[], [], [], 0⟩ :=
  ⟨by decide, (claim5_hex_validation ("#ff69b4".data)).1 (by decide),
    (claim5_hex_validation []).2.2 ⟨[], [], [], 0⟩ ("X".data) ("zz".data) (by decide)⟩

/-- C5 counterexample: the claim's "fails iff the remainder is not exactly
six hexadecimal digits" is false.  `"abcde"` has a five-character remainder
yet parses (slices `"ab"`, `"cd"`, `"e"`), and `"##ff0000"` — whose
remainder after stripping ONE optional `#` is `"#ff0000"`, not six hex
digits — also parses because `lstrip('#')` strips every leading `#`. -/
theorem claim5_counterexample :
    hexToRgb ("abcde".data) = some (171, 205, 14) ∧
      sixHex (lstripHash ("abcde".data)) = false ∧
      hexToRgb ("##ff0000".data) = some (255, 0, 0) ∧
      sixHex ("#ff0000".data) = false := by decide

/-! ## C8: title-casing -/

/-- Whether an optional preceding character counts as cased. -/
def prevCasedOf : Option Char → Bool
  | some q => pyAlpha q
  | none => false

theorem pyTitleGo_eq_zip :
    ∀ (s : List Char) (p : Option Char),
      pyTitleGo (prevCasedOf p) s =
        (List.zip (p :: s.map some) s).map (fun pc => recaseAfter pc.1 pc.2) := by
  intro s
  induction s with
  | nil => intro p; rfl
  | cons c cs ih =>
      intro p
      show (if pyAlpha c then
          (if prevCasedOf p then c.toLower else c.toUpper) :: pyTitleGo true cs
        else c :: pyTitleGo false cs) =
        recaseAfter p c :: (List.zip (some c :: cs.map some) cs).map
          (fun pc => recaseAfter pc.1 pc.2)
      rw [← ih (some c)]
      by_cases hc : pyAlpha c
      · rw [if_pos hc]
        have hpc : prevCasedOf (some c) = true := hc
        rw [hpc]
        have hr : recaseAfter p c = if prevCasedOf p then c.toLower else c.toUpper := by
          unfold recaseAfter prevCasedOf
          rw [if_pos hc]
          cases p <;> rfl
        rw [hr]
      · rw [if_neg hc]
        have hpc : prevCasedOf (some c) = false := by
          simp [prevCasedOf]
          exact Bool.of_not_eq_true hc
        rw [hpc]
        have hr : recaseAfter p c = c := by
          unfold recaseAfter
          rw [if_neg hc]
        rw [hr]

/-- C8.  Title-casing policy, amended: `str.title()` starts a new word at
EVERY non-alphabetic character, not only at whitespace: a letter is
uppercased exactly when the preceding character (if any) is not a letter,
lowercased when it is, and non-letters pass through unchanged. -/
theorem claim8_title_casing : ∀ s : List Char, pyTitle s = titleBySep s := by
  intro s
  have h := pyTitleGo_eq_zip s none
  exact h

/-- C8 counterexample: on `"o'hara"` Python's `str.title()` re-cases after
the apostrophe, producing `"O'Hara"`, while the claimed
whitespace-word-only title-casing would produce `"O'hara"`. -/
theorem claim8_counterexample :
    pyTitle ("o'hara".data) = "O'Hara".data ∧
      specTitleWs true ("o'hara".data) = "O'hara".data ∧
      pyTitle ("o'hara".data) ≠ specTitleWs true ("o'hara".data) := by decide

/-! ## Merge engine lemmas -/

theorem mergeStep_skip_hex {st : MState} {n h : List Char}
    (hmem : h ∈ st.seenHex) : mergeStep st (n, h) = st := by
  show (if h ∈ st.seenHex then st else _) = st
  rw [if_pos hmem]

theorem mergeStep_skip_name {st : MState} {n h : List Char}
    (hname : pyLower (pyTitle n) ∈ st.seenNames) : mergeStep st (n, h) = st := by
  show (if h ∈ st.seenHex then st
    else if pyLower (pyTitle n) ∈ st.seenNames then st else _) = st
  split_ifs <;> rfl

theorem mergeStep_admit {st : MState} {n h : List Char} {rv gv bv : Int}
    (hhex : h ∉ st.seenHex) (hname : pyLower (pyTitle n) ∉ st.seenNames)
    (hok : hexToRgb h = some (rv, gv, bv)) :
    mergeStep st (n, h) =
      { catalog := st.catalog ++ [⟨pyTitle n, rv, gv, bv⟩],
        seenHex := h :: st.seenHex,
        seenNames := pyLower (pyTitle n) :: st.seenNames,
        added := st.added + 1 } := by
  show (if h ∈ st.seenHex then st
    else if pyLower (pyTitle n) ∈ st.seenNames then st
    else match hexToRgb h with
      | some (rv, gv, bv) =>
          { catalog := st.catalog ++ [⟨pyTitle n, rv, gv, bv⟩],
            seenHex := h :: st.seenHex,
            seenNames := pyLower (pyTitle n) :: st.seenNames,
            added := st.added + 1 }
      | none => st) = _
  rw [if_neg hhex, if_neg hname, hok]

/-- Every way `mergeStep` can act: unchanged, or an admission. -/
theorem mergeStep_cases (st : MState) (r : List Char × List Char) :
    mergeStep st r = st ∨
      ∃ rv gv bv, r.2 ∉ st.seenHex ∧ pyLower (pyTitle r.1) ∉ st.seenNames ∧
        hexToRgb r.2 = some (rv, gv, bv) ∧
        mergeStep st r =
          { catalog := st.catalog ++ [⟨pyTitle r.1, rv, gv, bv⟩],
            seenHex := r.2 :: st.seenHex,
            seenNames := pyLower (pyTitle r.1) :: st.seenNames,
            added := st.added + 1 } := by
  obtain ⟨n, h⟩ := r
  by_cases h1 : h ∈ st.seenHex
  · exact Or.inl (mergeStep_skip_hex h1)
  by_cases h2 : pyLower (pyTitle n) ∈ st.seenNames
  · exact Or.inl (mergeStep_skip_name h2)
  rcases hr : hexToRgb h with _ | ⟨⟨rv, gv, bv⟩⟩
  · exact Or.inl (mergeStep_skip_of_bad_hex st n h hr)
  · exact Or.inr ⟨rv, gv, bv, h1, h2, rfl, mergeStep_admit h1 h2 hr⟩

theorem mergeStep_seenHex_mono {st : MState} {x : List Char} (r : List Char × List Char)
    (hx : x ∈ st.seenHex) : x ∈ (mergeStep st r).seenHex := by
  rcases mergeStep_cases st r with heq | ⟨rv, gv, bv, _, _, _, heq⟩ <;> rw [heq]
  · exact hx
  · exact List.mem_cons_of_mem _ hx

theorem mergeStep_seenNames_mono {st : MState} {y : List Char} (r : List Char × List Char)
    (hy : y ∈ st.seenNames) : y ∈ (mergeStep st r).seenNames := by
  rcases mergeStep_cases st r with heq | ⟨rv, gv, bv, _, _, _, heq⟩ <;> rw [heq]
  · exact hy
  · exact List.mem_cons_of_mem _ hy

theorem foldl_seenHex_mono :
    ∀ (ext : List (List Char × List Char)) (st : MState) (x : List Char),
      x ∈ st.seenHex → x ∈ (ext.foldl mergeStep st).seenHex := by
  intro ext
  induction ext with
  | nil => intro st x hx; exact hx
  | cons r rs ih => intro st x hx; exact ih (mergeStep st r) x (mergeStep_seenHex_mono r hx)

theorem foldl_seenNames_mono :
    ∀ (ext : List (List Char × List Char)) (st : MState) (y : List Char),
      y ∈ st.seenNames → y ∈ (ext.foldl mergeStep st).seenNames := by
  intro ext
  induction ext with
  | nil => intro st y hy; exact hy
  | cons r rs ih => intro st y hy; exact ih (mergeStep st r) y (mergeStep_seenNames_mono r hy)

/-- The catalog only grows at the end, and `added` counts the growth. -/
theorem foldl_catalog_prefix :
    ∀ (ext : List (List Char × List Char)) (st : MState),
      ∃ news, (ext.foldl mergeStep st).catalog = st.catalog ++ news ∧
        (ext.foldl mergeStep st).added = st.added + news.length := by
  intro ext
  induction ext with
  | nil => intro st; exact ⟨[], by simp⟩
  | cons r rs ih =>
      intro st
      rcases mergeStep_cases st r with heq | ⟨rv, gv, bv, _, _, _, heq⟩
      · obtain ⟨news, h1, h2⟩ := ih (mergeStep st r)
        exact ⟨news, by rw [List.foldl_cons, h1, heq], by rw [List.foldl_cons, h2, heq]⟩
      · obtain ⟨news, h1, h2⟩ := ih (mergeStep st r)
        refine ⟨⟨pyTitle r.1, rv, gv, bv⟩ :: news, ?_, ?_⟩
        · rw [List.foldl_cons, h1, heq]; simp
        · rw [List.foldl_cons, h2, heq]; simp [Nat.add_comm, Nat.add_assoc, Nat.add_left_comm]

/-- Seeding: catalog is copied verbatim, `added` stays, and the seen sets
hold exactly the formatted hexes and lowercased names. -/
theorem seed_foldl_spec :
    ∀ (l : List NamedColor) (st : MState),
      (l.foldl seedStep st).catalog = st.catalog ++ l ∧
        (l.foldl seedStep st).added = st.added ∧
        (∀ x, x ∈ (l.foldl seedStep st).seenHex ↔
          x ∈ st.seenHex ∨ ∃ e ∈ l, pyFmtHex e = x) ∧
        (∀ y, y ∈ (l.foldl seedStep st).seenNames ↔
          y ∈ st.seenNames ∨ ∃ e ∈ l, pyLower e.name = y) := by
  intro l
  induction l with
  | nil => intro st; refine ⟨by simp, rfl, ?_, ?_⟩ <;> intro x <;> simp
  | cons e l ih =>
      intro st
      obtain ⟨h1, h2, h3, h4⟩ := ih (seedStep st e)
      refine ⟨?_, ?_, ?_, ?_⟩
      · rw [List.foldl_cons, h1]; show (st.catalog ++ [e]) ++ l = _; simp
      · rw [List.foldl_cons, h2]; rfl
      · intro x
        rw [List.foldl_cons, h3 x]
        show x ∈ pyFmtHex e :: st.seenHex ∨ (∃ e2 ∈ l, pyFmtHex e2 = x) ↔
          x ∈ st.seenHex ∨ ∃ e2 ∈ e :: l, pyFmtHex e2 = x
        rw [List.mem_cons]
        constructor
        · rintro ((hx | hx) | ⟨w, hw, hfw⟩)
          · exact Or.inr ⟨e, List.mem_cons_self e l, hx.symm⟩
          · exact Or.inl hx
          · exact Or.inr ⟨w, List.mem_cons_of_mem e hw, hfw⟩
        · rintro (hx | ⟨w, hw, hfw⟩)
          · exact Or.inl (Or.inr hx)
          · rcases List.mem_cons.mp hw with rfl | hw2
            · exact Or.inl (Or.inl hfw.symm)
            · exact Or.inr ⟨w, hw2, hfw⟩
      · intro y
        rw [List.foldl_cons, h4 y]
        show y ∈ pyLower e.name :: st.seenNames ∨ (∃ e2 ∈ l, pyLower e2.name = y) ↔
          y ∈ st.seenNames ∨ ∃ e2 ∈ e :: l, pyLower e2.name = y
        rw [List.mem_cons]
        constructor
        · rintro ((hy | hy) | ⟨w, hw, hfw⟩)
          · exact Or.inr ⟨e, List.mem_cons_self e l, hy.symm⟩
          · exact Or.inl hy
          · exact Or.inr ⟨w, List.mem_cons_of_mem e hw, hfw⟩
        · rintro (hy | ⟨w, hw, hfw⟩)
          · exact Or.inl (Or.inr hy)
          · rcases List.mem_cons.mp hw with rfl | hw2
            · exact Or.inl (Or.inl hfw.symm)
            · exact Or.inr ⟨w, hw2, hfw⟩

theorem seedState_catalog (l : List NamedColor) : (seedState l).catalog = l := by
  have h := (seed_foldl_spec l ⟨[], [], [], 0⟩).1
  simpa [seedState] using h

theorem seedState_added (l : List NamedColor) : (seedState l).added = 0 :=
  (seed_foldl_spec l ⟨[], [], [], 0⟩).2.1

theorem seedState_seenHex (l : List NamedColor) (x : List Char) :
    x ∈ (seedState l).seenHex ↔ ∃ e ∈ l, pyFmtHex e = x := by
  have h := (seed_foldl_spec l ⟨[], [], [], 0⟩).2.2.1 x
  simpa [seedState] using h

theorem seedState_seenNames (l : List NamedColor) (y : List Char) :
    y ∈ (seedState l).seenNames ↔ ∃ e ∈ l, pyLower e.name = y := by
  have h := (seed_foldl_spec l ⟨[], [], [], 0⟩).2.2.2 y
  simpa [seedState] using h

/-- C9.  Added-count accounting: the existing entries form a verbatim
prefix of the produced catalog, in order, and `added_count` equals the
length of the produced catalog minus the length of the existing sequence. -/
theorem claim9_added_count :
    ∀ (existing : List NamedColor) (ext : List (List Char × List Char)),
      ∃ news, (merge existing ext).1 = existing ++ news ∧
        (merge existing ext).2 = news.length ∧
        ((merge existing ext).1).take existing.length = existing ∧
        (merge existing ext).2 = ((merge existing ext).1).length - existing.length := by
  intro existing ext
  obtain ⟨news, h1, h2⟩ := foldl_catalog_prefix ext (seedState existing)
  rw [seedState_catalog] at h1
  rw [seedState_added] at h2
  refine ⟨news, h1, by simpa using h2, ?_, ?_⟩
  · show ((ext.foldl mergeStep (seedState existing)).catalog).take existing.length = existing
    rw [h1, List.take_left]
  · show (ext.foldl mergeStep (seedState existing)).added =
      ((ext.foldl mergeStep (seedState existing)).catalog).length - existing.length
    rw [h1, h2, List.length_append]
    omega

/-- C2.  Priority invariant, amended: an external record is never admitted
when its RAW hex string equals the `"#rrggbb"` lowercase format of an
existing entry, or when its lowercased title-cased name equals an existing
entry's lowercased name — and the existing entries always survive verbatim
as a prefix.  (Hex collisions spelled differently — e.g. uppercase hex —
are NOT detected; see the counterexample.) -/
theorem claim2_priority :
    ∀ (existing : List NamedColor) (pre post : List (List Char × List Char)) (n h : List Char),
      (∃ e ∈ existing, h = pyFmtHex e ∨ pyLower (pyTitle n) = pyLower e.name) →
      mergeStep (pre.foldl mergeStep (seedState existing)) (n, h) =
          pre.foldl mergeStep (seedState existing) ∧
        ∃ news, (merge existing (pre ++ (n, h) :: post)).1 = existing ++ news := by
  intro existing pre post n h hcol
  obtain ⟨e, he, hcase⟩ := hcol
  constructor
  · rcases hcase with hhex | hname
    · have h0 : h ∈ (seedState existing).seenHex :=
        (seedState_seenHex existing h).mpr ⟨e, he, hhex.symm⟩
      exact mergeStep_skip_hex (foldl_seenHex_mono pre (seedState existing) h h0)
    · have h0 : pyLower (pyTitle n) ∈ (seedState existing).seenNames :=
        (seedState_seenNames existing (pyLower (pyTitle n))).mpr ⟨e, he, hname.symm⟩
      exact mergeStep_skip_name (foldl_seenNames_mono pre (seedState existing) _ h0)
  · obtain ⟨news, h1, _⟩ := foldl_catalog_prefix (pre ++ (n, h) :: post) (seedState existing)
    rw [seedState_catalog] at h1
    exact ⟨news, h1⟩

/-- C2 witness: the theorem applied to existing `[("Red",255,0,0)]` and the
colliding record `("red", "#ff0000")`. -/
theorem claim2_priority_witness :
    (∃ e ∈ [(⟨"Red".data, 255, 0, 0⟩ : NamedColor)],
        "#ff0000".data = pyFmtHex e ∨
          pyLower (pyTitle ("red".data)) = pyLower e.name) ∧
      (mergeStep (List.foldl mergeStep (seedState [⟨"Red".data, 255, 0, 0⟩]) [])
            ("red".data, "#ff0000".data) =
          List.foldl mergeStep (seedState [⟨"Red".data, 255, 0, 0⟩]) [] ∧
        ∃ news,
          (merge [⟨"Red".data, 255, 0, 0⟩] ([] ++ ("red".data, "#ff0000".data) :: [])).1 =
            [⟨"Red".data, 255, 0, 0⟩] ++ news) :=
  ⟨by decide, claim2_priority [⟨"Red".data, 255, 0, 0⟩] [] [] ("red".data) ("#ff0000".data)
    (by decide)⟩

/-- C2 counterexample: the record `("Scarlet", "#FF0000")` has normalized
hex `ff0000`, equal to the existing entry's normalized hex (derived from
`(255,0,0)`), yet it IS admitted: the dedup compares the raw string
`"#FF0000"` against the lowercase format `"#ff0000"`, so the produced
catalog contains an entry derived from the colliding external record. -/
theorem claim2_counterexample :
    merge [⟨"Red".data, 255, 0, 0⟩] [("Scarlet".data, "#FF0000".data)] =
        ([⟨"Red".data, 255, 0, 0⟩, ⟨"Scarlet".data, 255, 0, 0⟩], 1) ∧
      hexToRgb ("#FF0000".data) = some (255, 0, 0) ∧
      normHex ⟨"Scarlet".data, 255, 0, 0⟩ = normHex ⟨"Red".data, 255, 0, 0⟩ := by decide

/-! ## Normalized-form hex strings and the formatting round trip -/

/-- The raw hex string is in normalized form: `'#'` followed by exactly
six lowercase hexadecimal digits. -/
def isNormHex (h : List Char) : Bool :=
  match h with
  | c :: t => c = '#' && t.length = 6 && t.all isLowerHex
  | [] => false

theorem isLowerHex_ne_hash {c : Char} (h : isLowerHex c = true) : ¬(c = '#') := by
  intro hc; subst hc; exact absurd h (by decide)

theorem hexVal_lt_16 {c : Char} (h : isLowerHex c = true) : hexVal c < 16 := by
  simp only [isLowerHex, Bool.or_eq_true, Bool.and_eq_true, decide_eq_true_eq] at h
  unfold hexVal
  split_ifs with h1 h2 <;>
    simp only [Bool.and_eq_true, decide_eq_true_eq] at * <;> omega

theorem hexChar_hexVal {c : Char} (h : isLowerHex c = true) : hexChar (hexVal c) = c := by
  simp only [isLowerHex, Bool.or_eq_true, Bool.and_eq_true, decide_eq_true_eq] at h
  rcases h with ⟨h1, h2⟩ | ⟨h1, h2⟩
  · have hv : hexVal c = c.toNat - 48 := by
      unfold hexVal
      rw [if_pos (by simp only [Bool.and_eq_true, decide_eq_true_eq]; exact ⟨h1, h2⟩)]
    rw [hv]
    unfold hexChar
    rw [if_pos (by omega : c.toNat - 48 < 10)]
    have harith : 48 + (c.toNat - 48) = c.toNat := by omega
    rw [harith, Char.ofNat_toNat]
  · have hv : hexVal c = c.toNat - 87 := by
      unfold hexVal
      rw [if_neg (by simp only [Bool.and_eq_true, decide_eq_true_eq, not_and]; omega),
        if_pos h1]
    rw [hv]
    unfold hexChar
    rw [if_neg (by omega : ¬(c.toNat - 87 < 10))]
    have harith : 87 + (c.toNat - 87) = c.toNat := by omega
    rw [harith, Char.ofNat_toNat]

theorem fmt02x_byte_fin :
    ∀ v : Fin 256, pyFmt02x ((v.val : Nat) : Int) = [hexChar (v.val / 16), hexChar (v.val % 16)] := by
  decide

theorem fmt02x_pair {a b : Char} (ha : isLowerHex a = true) (hb : isLowerHex b = true) :
    pyFmt02x (16 * (hexVal a : Int) + (hexVal b : Int)) = [a, b] := by
  have hva := hexVal_lt_16 ha
  have hvb := hexVal_lt_16 hb
  have hlt : 16 * hexVal a + hexVal b < 256 := by omega
  have hcast : (16 * (hexVal a : Int) + (hexVal b : Int)) =
      ((16 * hexVal a + hexVal b : Nat) : Int) := by push_cast; ring
  rw [hcast]
  have h := fmt02x_byte_fin ⟨16 * hexVal a + hexVal b, hlt⟩
  simp only at h
  rw [h]
  have hdiv : (16 * hexVal a + hexVal b) / 16 = hexVal a := by omega
  have hmod : (16 * hexVal a + hexVal b) % 16 = hexVal b := by omega
  rw [hdiv, hmod, hexChar_hexVal ha, hexChar_hexVal hb]

theorem isLowerHex_isHexDigit_all {t : List Char} (h : t.all isLowerHex = true) :
    t.all isHexDigit = true := by
  simp only [List.all_eq_true] at *
  exact fun c hc => isLowerHex_isHexDigit (h c hc)

/-- A normalized-form hex string parses, and formatting the parsed bytes
reproduces it exactly. -/
theorem isNormHex_parse {h : List Char} (hn : isNormHex h = true) :
    ∃ rv gv bv : Int, hexToRgb h = some (rv, gv, bv) ∧
      ∀ nm : List Char, pyFmtHex ⟨nm, rv, gv, bv⟩ = h := by
  rcases h with _ | ⟨c0, t⟩
  · exact absurd hn (by decide)
  simp only [isNormHex, Bool.and_eq_true, decide_eq_true_eq, List.all_eq_true] at hn
  obtain ⟨⟨hc0, hlen⟩, hall⟩ := hn
  subst hc0
  rcases t with _ | ⟨a, _ | ⟨b, _ | ⟨c, _ | ⟨d, _ | ⟨e, _ | ⟨f, tl⟩⟩⟩⟩⟩⟩ <;>
    simp only [List.length] at hlen <;> try omega
  have htl : tl = [] := by
    have h0 : tl.length = 0 := by omega
    exact List.length_eq_zero.mp h0
  subst htl
  have ha := hall a (by simp)
  have hb := hall b (by simp)
  have hc := hall c (by simp)
  have hd := hall d (by simp)
  have he := hall e (by simp)
  have hf := hall f (by simp)
  have hstrip : lstripHash ('#' :: [a, b, c, d, e, f]) = [a, b, c, d, e, f] := by
    show List.dropWhile (fun x => x = '#') ('#' :: [a, b, c, d, e, f]) = _
    rw [List.dropWhile_cons_of_pos (by simp)]
    rw [List.dropWhile_cons_of_neg (by simp [isLowerHex_ne_hash ha])]
  have hsix : sixHex (lstripHash ('#' :: [a, b, c, d, e, f])) = true := by
    rw [hstrip]
    simp only [sixHex, Bool.and_eq_true, decide_eq_true_eq, List.all_eq_true]
    refine ⟨rfl, ?_⟩
    intro x hx
    simp only [List.mem_cons] at hx
    rcases hx with rfl | rfl | rfl | rfl | rfl | rfl | hx
    · exact isLowerHex_isHexDigit ha
    · exact isLowerHex_isHexDigit hb
    · exact isLowerHex_isHexDigit hc
    · exact isLowerHex_isHexDigit hd
    · exact isLowerHex_isHexDigit he
    · exact isLowerHex_isHexDigit hf
    · simp at hx
  have hrgb := hexToRgb_six hsix
  rw [hstrip] at hrgb
  refine ⟨_, _, _, hrgb, ?_⟩
  intro nm
  show '#' :: (pyFmt02x _ ++ pyFmt02x _ ++ pyFmt02x _) = _
  have e1 : hexPairVal (pySlice [a, b, c, d, e, f] 0 2) =
      16 * (hexVal a : Int) + (hexVal b : Int) := rfl
  have e2 : hexPairVal (pySlice [a, b, c, d, e, f] 2 4) =
      16 * (hexVal c : Int) + (hexVal d : Int) := rfl
  have e3 : hexPairVal (pySlice [a, b, c, d, e, f] 4 6) =
      16 * (hexVal e : Int) + (hexVal f : Int) := rfl
  rw [e1, e2, e3, fmt02x_pair ha hb, fmt02x_pair hc hd, fmt02x_pair he hf]
  rfl

/-! ## The seen-set/catalog correspondence invariant -/

/-- The seen sets hold exactly the formatted hex keys and lowercased
names of the catalog entries. -/
def SeenExact (st : MState) : Prop :=
  (∀ x, x ∈ st.seenHex ↔ ∃ e ∈ st.catalog, pyFmtHex e = x) ∧
    (∀ y, y ∈ st.seenNames ↔ ∃ e ∈ st.catalog, pyLower e.name = y)

theorem seedState_seenExact (l : List NamedColor) : SeenExact (seedState l) := by
  constructor
  · intro x
    rw [seedState_seenHex l x, seedState_catalog l]
  · intro y
    rw [seedState_seenNames l y, seedState_catalog l]

theorem mergeStep_seenExact {st : MState} {r : List Char × List Char}
    (hst : SeenExact st) (hn : isNormHex r.2 = true) : SeenExact (mergeStep st r) := by
  rcases mergeStep_cases st r with heq | ⟨rv, gv, bv, hhex, hname, hok, heq⟩
  · rw [heq]; exact hst
  obtain ⟨rv2, gv2, bv2, hok2, hfmt⟩ := isNormHex_parse hn
  rw [hok] at hok2
  obtain ⟨hrv, hgv, hbv⟩ : rv = rv2 ∧ gv = gv2 ∧ bv = bv2 := by
    simpa only [Option.some.injEq, Prod.mk.injEq] using hok2
  subst hrv; subst hgv; subst hbv
  rw [heq]
  obtain ⟨hH, hN⟩ := hst
  constructor
  · intro x
    show x ∈ r.2 :: st.seenHex ↔ ∃ e ∈ st.catalog ++ [⟨pyTitle r.1, rv, gv, bv⟩], pyFmtHex e = x
    rw [List.mem_cons]
    constructor
    · rintro (rfl | hx)
      · exact ⟨⟨pyTitle r.1, rv, gv, bv⟩, by simp, hfmt _⟩
      · obtain ⟨e, he, hfe⟩ := (hH x).mp hx
        exact ⟨e, by simp [he], hfe⟩
    · rintro ⟨e, he, hfe⟩
      rcases List.mem_append.mp he with he2 | he2
      · exact Or.inr ((hH x).mpr ⟨e, he2, hfe⟩)
      · simp only [List.mem_singleton] at he2
        subst he2
        rw [hfmt _] at hfe
        exact Or.inl hfe.symm
  · intro y
    show y ∈ pyLower (pyTitle r.1) :: st.seenNames ↔
      ∃ e ∈ st.catalog ++ [⟨pyTitle r.1, rv, gv, bv⟩], pyLower e.name = y
    rw [List.mem_cons]
    constructor
    · rintro (rfl | hy)
      · exact ⟨⟨pyTitle r.1, rv, gv, bv⟩, by simp, rfl⟩
      · obtain ⟨e, he, hfe⟩ := (hN y).mp hy
        exact ⟨e, by simp [he], hfe⟩
    · rintro ⟨e, he, hfe⟩
      rcases List.mem_append.mp he with he2 | he2
      · exact Or.inr ((hN y).mpr ⟨e, he2, hfe⟩)
      · simp only [List.mem_singleton] at he2
        subst he2
        exact Or.inl hfe.symm

/-- Pairwise distinctness of the derived hex keys. -/
abbrev HexUnique (cat : List NamedColor) : Prop :=
  cat.Pairwise (fun e1 e2 => normHex e1 ≠ normHex e2)

theorem mergeStep_hexUnique {st : MState} {r : List Char × List Char}
    (hst : SeenExact st) (hu : HexUnique st.catalog) (hn : isNormHex r.2 = true) :
    HexUnique (mergeStep st r).catalog := by
  rcases mergeStep_cases st r with heq | ⟨rv, gv, bv, hhex, hname, hok, heq⟩
  · rw [heq]; exact hu
  obtain ⟨rv2, gv2, bv2, hok2, hfmt⟩ := isNormHex_parse hn
  rw [hok] at hok2
  obtain ⟨hrv, hgv, hbv⟩ : rv = rv2 ∧ gv = gv2 ∧ bv = bv2 := by
    simpa only [Option.some.injEq, Prod.mk.injEq] using hok2
  subst hrv; subst hgv; subst hbv
  rw [heq]
  show HexUnique (st.catalog ++ [⟨pyTitle r.1, rv, gv, bv⟩])
  unfold HexUnique
  rw [List.pairwise_append]
  refine ⟨hu, List.pairwise_singleton _ _, ?_⟩
  intro e1 he1 e2 he2
  simp only [List.mem_singleton] at he2
  subst he2
  intro hcontra
  apply hhex
  apply (hst.1 r.2).mpr
  refine ⟨e1, he1, ?_⟩
  have hfmt1 : pyFmtHex ⟨pyTitle r.1, rv, gv, bv⟩ = r.2 := hfmt _
  show pyFmtHex e1 = r.2
  rw [← hfmt1]
  show '#' :: normHex e1 = '#' :: normHex _
  rw [hcontra]

theorem foldl_seenExact_hexUnique :
    ∀ (ext : List (List Char × List Char)) (st : MState),
      (∀ r ∈ ext, isNormHex r.2 = true) → SeenExact st → HexUnique st.catalog →
      SeenExact (ext.foldl mergeStep st) ∧ HexUnique (ext.foldl mergeStep st).catalog := by
  intro ext
  induction ext with
  | nil => intro st _ h1 h2; exact ⟨h1, h2⟩
  | cons r rs ih =>
      intro st hn h1 h2
      have hr := hn r (by simp)
      exact ih (mergeStep st r) (fun r2 hr2 => hn r2 (by simp [hr2]))
        (mergeStep_seenExact h1 hr) (mergeStep_hexUnique h1 h2 hr)

/-- C1.  Hex-uniqueness, amended: when every external record's raw hex
string is in normalized form (`'#'` + six lowercase hex digits) and the
existing entries have pairwise-distinct normalized hex keys, no two
entries of the merged catalog share a normalized hex key.  Without the
normalized-form condition the invariant FAILS (see the counterexample):
the dedup set compares raw spellings, and `seen_hex` actually holds the
`"#rrggbb"` formats of existing entries together with admitted records'
raw hex strings verbatim — not `#`-less normalized keys as claimed. -/
theorem claim1_hex_uniqueness :
    ∀ (existing : List NamedColor) (ext : List (List Char × List Char)),
      HexUnique existing → (∀ r ∈ ext, isNormHex r.2 = true) →
      HexUnique (merge existing ext).1 := by
  intro existing ext hu hn
  have hseed : HexUnique (seedState existing).catalog := by
    rw [seedState_catalog]; exact hu
  exact (foldl_seenExact_hexUnique ext (seedState existing) hn
    (seedState_seenExact existing) hseed).2

/-- C1 witness: the theorem applied to a concrete existing catalog and a
normalized-form external record. -/
theorem claim1_hex_uniqueness_witness :
    HexUnique [(⟨"Red".data, 255, 0, 0⟩ : NamedColor)] ∧
      (∀ r ∈ [("Green".data, "#00ff00".data)], isNormHex r.2 = true) ∧
      HexUnique (merge [⟨"Red".data, 255, 0, 0⟩] [("Green".data, "#00ff00".data)]).1 :=
  ⟨by decide, by decide,
    claim1_hex_uniqueness [⟨"Red".data, 255, 0, 0⟩] [("Green".data, "#00ff00".data)]
      (by decide) (by decide)⟩

/-- C1 counterexample: two records carrying the same color with different
raw spellings (`"#FF0000"`/`"#ff0000"`) are BOTH admitted, so the produced
catalog has two entries with identical normalized hex `ff0000`; also the
seeded `seen_hex` element is `"#ff0000"` — WITH `'#'` — not the claimed
`#`-less normalized key. -/
theorem claim1_counterexample :
    merge [] [("Aa".data, "#FF0000".data), ("Bb".data, "#ff0000".data)] =
        ([⟨"Aa".data, 255, 0, 0⟩, ⟨"Bb".data, 255, 0, 0⟩], 2) ∧
      normHex ⟨"Aa".data, 255, 0, 0⟩ = normHex ⟨"Bb".data, 255, 0, 0⟩ ∧
      (seedState [⟨"Aa".data, 255, 0, 0⟩]).seenHex = ["#ff0000".data] := by decide

/-! ## Idempotence machinery -/

/-- Four-way case analysis of `mergeStep`, remembering why a record was
skipped. -/
theorem mergeStep_cases4 (st : MState) (r : List Char × List Char) :
    (r.2 ∈ st.seenHex ∧ mergeStep st r = st) ∨
      (pyLower (pyTitle r.1) ∈ st.seenNames ∧ mergeStep st r = st) ∨
      (hexToRgb r.2 = none ∧ mergeStep st r = st) ∨
      (∃ rv gv bv, r.2 ∉ st.seenHex ∧ pyLower (pyTitle r.1) ∉ st.seenNames ∧
        hexToRgb r.2 = some (rv, gv, bv) ∧
        mergeStep st r =
          { catalog := st.catalog ++ [⟨pyTitle r.1, rv, gv, bv⟩],
            seenHex := r.2 :: st.seenHex,
            seenNames := pyLower (pyTitle r.1) :: st.seenNames,
            added := st.added + 1 }) := by
  obtain ⟨n, h⟩ := r
  by_cases h1 : h ∈ st.seenHex
  · exact Or.inl ⟨h1, mergeStep_skip_hex h1⟩
  by_cases h2 : pyLower (pyTitle n) ∈ st.seenNames
  · exact Or.inr (Or.inl ⟨h2, mergeStep_skip_name h2⟩)
  rcases hr : hexToRgb h with _ | ⟨⟨rv, gv, bv⟩⟩
  · exact Or.inr (Or.inr (Or.inl ⟨rfl, mergeStep_skip_of_bad_hex st n h hr⟩))
  · exact Or.inr (Or.inr (Or.inr ⟨rv, gv, bv, h1, h2, rfl, mergeStep_admit h1 h2 hr⟩))

/-- After the merge fold, every record with a parseable hex has left a
trace: its raw hex is in `seen_hex` or its lowercased clean name is in
`seen_names`. -/
theorem foldl_coverage :
    ∀ (ext : List (List Char × List Char)) (st : MState),
      ∀ r ∈ ext, hexToRgb r.2 ≠ none →
        r.2 ∈ (ext.foldl mergeStep st).seenHex ∨
          pyLower (pyTitle r.1) ∈ (ext.foldl mergeStep st).seenNames := by
  intro ext
  induction ext with
  | nil => intro st r hr; simp at hr
  | cons r0 rs ih =>
      intro st r hr hsome
      rw [List.foldl_cons]
      rcases List.mem_cons.mp hr with rfl | hmem
      · rcases mergeStep_cases4 st r with ⟨hin, heq⟩ | ⟨hin, heq⟩ | ⟨hnone, _⟩ |
          ⟨rv, gv, bv, _, _, _, heq⟩
        · exact Or.inl (foldl_seenHex_mono rs _ _ (heq.symm ▸ hin))
        · exact Or.inr (foldl_seenNames_mono rs _ _ (heq.symm ▸ hin))
        · exact absurd hnone hsome
        · refine Or.inl (foldl_seenHex_mono rs _ _ ?_)
          rw [heq]
          exact List.mem_cons_self _ _
      · exact ih (mergeStep st r0) r hmem hsome

/-- A fold over records that are all already covered by the current seen
sets leaves the state untouched. -/
theorem foldl_noop :
    ∀ (ext : List (List Char × List Char)) (st : MState),
      (∀ r ∈ ext, r.2 ∈ st.seenHex ∨ pyLower (pyTitle r.1) ∈ st.seenNames) →
      ext.foldl mergeStep st = st := by
  intro ext
  induction ext with
  | nil => intro st _; rfl
  | cons r0 rs ih =>
      intro st hcov
      have hstep : mergeStep st r0 = st := by
        rcases hcov r0 (by simp) with hin | hin
        · exact mergeStep_skip_hex hin
        · exact mergeStep_skip_name hin
      rw [List.foldl_cons, hstep]
      exact ih st (fun r hr => hcov r (by simp [hr]))

/-- C3.  Idempotence, amended: re-running `merge` with the produced catalog
as the existing catalog and the same external records yields the identical
catalog and `added_count = 0`, PROVIDED every external record's raw hex
string is in normalized form (`'#'` + six lowercase hex digits).  Without
that proviso idempotence fails (see the counterexample): a record skipped
for duplicating an earlier record's raw hex (e.g. `"#FF0000"`) is no
longer blocked on the second run, because the second run's seeded
`seen_hex` holds only lowercase `"#rrggbb"` formats. -/
theorem foldl_seenExact :
    ∀ (ext : List (List Char × List Char)) (st : MState),
      (∀ r ∈ ext, isNormHex r.2 = true) → SeenExact st →
      SeenExact (ext.foldl mergeStep st) := by
  intro ext
  induction ext with
  | nil => intro st _ h1; exact h1
  | cons r rs ih =>
      intro st hn h1
      exact ih (mergeStep st r) (fun r2 hr2 => hn r2 (by simp [hr2]))
        (mergeStep_seenExact h1 (hn r (by simp)))

theorem claim3_idempotence :
    ∀ (existing : List NamedColor) (ext : List (List Char × List Char)),
      (∀ r ∈ ext, isNormHex r.2 = true) →
      merge (merge existing ext).1 ext = ((merge existing ext).1, 0) := by
  intro existing ext hn
  set st1 := ext.foldl mergeStep (seedState existing) with hst1
  have hseen : SeenExact st1 :=
    foldl_seenExact ext (seedState existing) hn (seedState_seenExact existing)
  have hcat1 : (merge existing ext).1 = st1.catalog := rfl
  have hcov : ∀ r ∈ ext, r.2 ∈ (seedState st1.catalog).seenHex ∨
      pyLower (pyTitle r.1) ∈ (seedState st1.catalog).seenNames := by
    intro r hr
    have hsome : hexToRgb r.2 ≠ none := by
      obtain ⟨rv, gv, bv, hok, _⟩ := isNormHex_parse (hn r hr)
      rw [hok]
      exact Option.some_ne_none _
    rcases foldl_coverage ext (seedState existing) r hr hsome with hin | hin
    · left
      obtain ⟨e, he, hfe⟩ := (hseen.1 r.2).mp hin
      exact (seedState_seenHex st1.catalog r.2).mpr ⟨e, he, hfe⟩
    · right
      obtain ⟨e, he, hfe⟩ := (hseen.2 (pyLower (pyTitle r.1))).mp hin
      exact (seedState_seenNames st1.catalog (pyLower (pyTitle r.1))).mpr ⟨e, he, hfe⟩
  have hnoop : ext.foldl mergeStep (seedState st1.catalog) = seedState st1.catalog :=
    foldl_noop ext (seedState st1.catalog) hcov
  show ((ext.foldl mergeStep (seedState (merge existing ext).1)).catalog,
    (ext.foldl mergeStep (seedState (merge existing ext).1)).added) = _
  rw [hcat1, hnoop, seedState_catalog, seedState_added]

/-- C3 witness: the theorem applied to a concrete catalog and a
normalized-form record list. -/
theorem claim3_idempotence_witness :
    (∀ r ∈ [("Green".data, "#00ff00".data)], isNormHex r.2 = true) ∧
      merge (merge [(⟨"Red".data, 255, 0, 0⟩ : NamedColor)]
          [("Green".data, "#00ff00".data)]).1 [("Green".data, "#00ff00".data)] =
        ((merge [(⟨"Red".data, 255, 0, 0⟩ : NamedColor)]
          [("Green".data, "#00ff00".data)]).1, 0) :=
  ⟨by decide, claim3_idempotence [⟨"Red".data, 255, 0, 0⟩]
    [("Green".data, "#00ff00".data)] (by decide)⟩

/-- C3 counterexample: with records `("A", "#FF0000"), ("B", "#FF0000")`
the first run produces `[("A",255,0,0)]` with `added = 1`; re-running
`merge` on that produced catalog with the SAME records admits `"B"`
(the second run's seeded `seen_hex` holds only `"#ff0000"`, which the raw
string `"#FF0000"` does not match), so the second run returns a different
catalog and `added = 1`, not `0`. -/
theorem claim3_counterexample :
    merge [] [("A".data, "#FF0000".data), ("B".data, "#FF0000".data)] =
        ([⟨"A".data, 255, 0, 0⟩], 1) ∧
      merge [⟨"A".data, 255, 0, 0⟩] [("A".data, "#FF0000".data), ("B".data, "#FF0000".data)] =
        ([⟨"A".data, 255, 0, 0⟩, ⟨"B".data, 255, 0, 0⟩], 1) := by decide

/-! ## C6 and C10: flattening -/

/-- C6.  Empty-name handling, amended: only the LIST shape filters — a
list record survives flattening exactly when both its `name` and `hex`
values are truthy (present and non-empty), so every flattened record of a
list payload has truthy fields.  The mapping shape performs NO filtering
(every `(value, key)` pair is kept, empty names included), and
normalization never fails on a name — there is no `EmptyName` check —
so empty or whitespace-only names can reach the produced catalog (see
the counterexample). -/
theorem claim6_empty_name :
    ∀ (items : List PyVal) (recs : List (PyVal × PyVal)),
      adapt (.vlist items) = .ok recs →
      ∀ r ∈ recs, truthy r.1 = true ∧ truthy r.2 = true := by
  intro items
  induction items with
  | nil =>
      intro recs h r hr
      simp only [adapt, adaptList] at h
      cases h
      simp at hr
  | cons item rest ih =>
      intro recs h r hr
      simp only [adapt] at h ih
      rcases item with s | n | l | d | _
      · exact absurd h (by simp [adaptList])
      · exact absurd h (by simp [adaptList])
      · exact absurd h (by simp [adaptList])
      · rw [adaptList] at h
        by_cases hcond :
            (truthy (dget d ("name".data)) && truthy (dget d ("hex".data))) = true
        · rw [if_pos hcond] at h
          rcases hrest : adaptList rest with e | rs
          · rw [hrest] at h
            exact absurd h (by simp)
          · rw [hrest] at h
            simp only [Except.ok.injEq] at h
            subst h
            rcases List.mem_cons.mp hr with rfl | hmem
            · simpa [Bool.and_eq_true] using hcond
            · exact ih rs hrest r hmem
        · rw [if_neg hcond] at h
          exact ih recs h r hr
      · exact absurd h (by simp [adaptList])

/-- C6 witness: the theorem applied to a concrete list payload in which a
record with an empty hex is dropped and a valid record is kept. -/
theorem claim6_empty_name_witness :
    adapt (.vlist [.vdict [("name".data, .vstr ("X".data)), ("hex".data, .vstr [])],
        .vdict [("name".data, .vstr ("Y".data)), ("hex".data, .vstr ("#00ff00".data))]]) =
      .ok [(.vstr ("Y".data), .vstr ("#00ff00".data))] ∧
      (∀ r ∈ [((.vstr ("Y".data) : PyVal), (.vstr ("#00ff00".data) : PyVal))],
        truthy r.1 = true ∧ truthy r.2 = true) :=
  ⟨rfl, claim6_empty_name
    [.vdict [("name".data, .vstr ("X".data)), ("hex".data, .vstr [])],
      .vdict [("name".data, .vstr ("Y".data)), ("hex".data, .vstr ("#00ff00".data))]]
    [(.vstr ("Y".data), .vstr ("#00ff00".data))] rfl⟩

/-- C6 counterexample: the mapping shape drops nothing — `{"#123456": ""}`
flattens to a record with an EMPTY name, merge admits it (there is no
`EmptyName` failure anywhere), and the produced catalog contains an entry
whose name is empty; likewise a list record with a whitespace-only name
(`" "` is truthy) survives flattening and is admitted. -/
theorem claim6_counterexample :
    adapt (.vdict [("#123456".data, .vstr [])]) =
        .ok [(.vstr [], .vstr ("#123456".data))] ∧
      merge [] [([], "#123456".data)] = ([⟨[], 18, 52, 86⟩], 1) ∧
      adapt (.vlist [.vdict [("name".data, .vstr [' ']), ("hex".data, .vstr ("#654321".data))]]) =
        .ok [(.vstr [' '], .vstr ("#654321".data))] ∧
      merge [] [([' '], "#654321".data)] = ([⟨[' '], 101, 67, 33⟩], 1) :=
  ⟨rfl, by decide, rfl, by decide⟩

/-- C10.  A list payload containing any non-mapping element makes the
flattening loop raise `AttributeError` (calling `.get` on a non-mapping);
the exception is not caught in `main`, so the run aborts before the merge
step instead of dropping the element. -/
theorem claim10_non_mapping_aborts :
    ∀ items : List PyVal, (∃ i ∈ items, isDict i = false) →
      adapt (.vlist items) = .error .attributeError := by
  intro items
  induction items with
  | nil => rintro ⟨i, hi, _⟩; simp at hi
  | cons item rest ih =>
      rintro ⟨i, hi, hnd⟩
      show adaptList (item :: rest) = _
      rcases item with s | n | l | d | _
      · rfl
      · rfl
      · rfl
      · have hrest : ∃ i ∈ rest, isDict i = false := by
          rcases List.mem_cons.mp hi with rfl | hmem
          · exact absurd hnd (by simp [isDict])
          · exact ⟨i, hmem, hnd⟩
        have herr : adaptList rest = .error .attributeError := ih hrest
        rw [adaptList]
        by_cases hcond :
            (truthy (dget d ("name".data)) && truthy (dget d ("hex".data))) = true
        · rw [if_pos hcond, herr]
        · rw [if_neg hcond]
          exact herr
      · rfl

/-- C10 witness: the theorem applied to a list containing the integer 42. -/
theorem claim10_non_mapping_aborts_witness :
    (∃ i ∈ [(.vint 42 : PyVal)], isDict i = false) ∧
      adapt (.vlist [.vint 42]) = .error .attributeError :=
  ⟨⟨.vint 42, List.mem_singleton.mpr rfl, rfl⟩,
    claim10_non_mapping_aborts [.vint 42] ⟨.vint 42, List.mem_singleton.mpr rfl, rfl⟩⟩

/-! ## C7: the nearest-name matcher -/

theorem distSq_nonneg (r g b : Int) (e : NamedColor) : 0 ≤ distSq r g b e := by
  unfold distSq
  positivity

/-- The comparison fold returns the first entry (in catalog order) whose
squared distance is minimal, together with its distance. -/
theorem gcn_fold :
    ∀ (cat : List NamedColor) (r g b : Int), cat ≠ [] →
      ∃ pre e post, cat = pre ++ e :: post ∧
        cat.foldl (gcnStep r g b) (none, "Unknown".data) = (some (distSq r g b e), e.name) ∧
        (∀ x ∈ cat, distSq r g b e ≤ distSq r g b x) ∧
        (∀ x ∈ pre, distSq r g b e < distSq r g b x) := by
  intro cat r g b hne
  induction cat using List.reverseRecOn with
  | nil => exact absurd rfl hne
  | append_singleton l z ih =>
      by_cases hl : l = []
      · subst hl
        refine ⟨[], z, [], rfl, rfl, ?_, ?_⟩
        · intro x hx
          simp only [List.nil_append, List.mem_singleton] at hx
          subst hx
          exact le_refl _
        · intro x hx
          simp at hx
      · obtain ⟨pre, e, post, hsplit, hfold, hmin, hstrict⟩ := ih hl
        rw [List.foldl_append, hfold]
        by_cases hlt : distSq r g b z < distSq r g b e
        · refine ⟨l, z, [], by simp, ?_, ?_, ?_⟩
          · show (if distSq r g b z < distSq r g b e
              then (some (distSq r g b z), z.name)
              else (some (distSq r g b e), e.name)) = _
            rw [if_pos hlt]
          · intro x hx
            rcases List.mem_append.mp hx with hx2 | hx2
            · have hxin : x ∈ pre ++ e :: post := hsplit ▸ hx2
              exact le_of_lt (lt_of_lt_of_le hlt (hmin x (hsplit ▸ hx2)))
            · simp only [List.mem_singleton] at hx2
              subst hx2
              exact le_refl _
          · intro x hx
            exact lt_of_lt_of_le hlt (hmin x (hsplit ▸ hx))
        · refine ⟨pre, e, post ++ [z], by rw [hsplit]; simp, ?_, ?_, hstrict⟩
          · show (if distSq r g b z < distSq r g b e
              then (some (distSq r g b z), z.name)
              else (some (distSq r g b e), e.name)) = _
            rw [if_neg hlt]
          · intro x hx
            rcases List.mem_append.mp hx with hx2 | hx2
            · exact hmin x (hsplit ▸ hx2)
            · simp only [List.mem_singleton] at hx2
              subst hx2
              exact not_lt.mp hlt

/-- C7.  Matcher, amended: on the empty catalog `getColorName` returns the
sentinel `"Unknown"`; on a non-empty catalog it returns the name of the
first entry minimizing the Euclidean distance (equivalently the squared
distance — `Real.sqrt` is monotone), ties resolved to the earliest entry
by the strict `<` comparison.  The returned string can coincide with the
sentinel when an entry is itself named `"Unknown"`, so "returns Unknown
only if the catalog is empty" does not hold literally (counterexample). -/
theorem claim7_matcher :
    ∀ (cat : List NamedColor) (r g b : Int),
      (cat = [] → getColorName cat r g b = "Unknown".data) ∧
      (cat ≠ [] → ∃ pre e post, cat = pre ++ e :: post ∧
        getColorName cat r g b = e.name ∧
        (∀ x ∈ cat, distSq r g b e ≤ distSq r g b x ∧
          Real.sqrt ((distSq r g b e : Int) : ℝ) ≤ Real.sqrt ((distSq r g b x : Int) : ℝ)) ∧
        (∀ x ∈ pre, distSq r g b e < distSq r g b x ∧
          Real.sqrt ((distSq r g b e : Int) : ℝ) < Real.sqrt ((distSq r g b x : Int) : ℝ))) := by
  intro cat r g b
  constructor
  · intro hcat; subst hcat; rfl
  · intro hne
    obtain ⟨pre, e, post, hsplit, hfold, hmin, hstrict⟩ := gcn_fold cat r g b hne
    refine ⟨pre, e, post, hsplit, ?_, ?_, ?_⟩
    · show (cat.foldl (gcnStep r g b) (none, "Unknown".data)).2 = e.name
      rw [hfold]
    · intro x hx
      refine ⟨hmin x hx, Real.sqrt_le_sqrt ?_⟩
      exact_mod_cast hmin x hx
    · intro x hx
      refine ⟨hstrict x hx, Real.sqrt_lt_sqrt ?_ ?_⟩
      · exact_mod_cast distSq_nonneg r g b e
      · exact_mod_cast hstrict x hx

/-- C7 witness: the theorem applied to the two-entry catalog from the
spec's test vector and the query `(250,10,10)`. -/
theorem claim7_matcher_witness :
    ([(⟨"Red".data, 255, 0, 0⟩ : NamedColor), ⟨"Black".data, 0, 0, 0⟩] ≠ []) ∧
      ∃ pre e post,
        [(⟨"Red".data, 255, 0, 0⟩ : NamedColor), ⟨"Black".data, 0, 0, 0⟩] =
          pre ++ e :: post ∧
        getColorName [⟨"Red".data, 255, 0, 0⟩, ⟨"Black".data, 0, 0, 0⟩] 250 10 10 = e.name ∧
        (∀ x ∈ [(⟨"Red".data, 255, 0, 0⟩ : NamedColor), ⟨"Black".data, 0, 0, 0⟩],
          distSq 250 10 10 e ≤ distSq 250 10 10 x ∧
          Real.sqrt ((distSq 250 10 10 e : Int) : ℝ) ≤
            Real.sqrt ((distSq 250 10 10 x : Int) : ℝ)) ∧
        (∀ x ∈ pre, distSq 250 10 10 e < distSq 250 10 10 x ∧
          Real.sqrt ((distSq 250 10 10 e : Int) : ℝ) <
            Real.sqrt ((distSq 250 10 10 x : Int) : ℝ)) :=
  ⟨by decide, (claim7_matcher [⟨"Red".data, 255, 0, 0⟩, ⟨"Black".data, 0, 0, 0⟩]
    250 10 10).2 (by decide)⟩

/-- C7 counterexample: an entry named `"Unknown"` makes the matcher return
the sentinel string on a NON-empty catalog, so the claimed "returns
Unknown if and only if the catalog is empty" fails in the only-if
direction. -/
theorem claim7_counterexample :
    getColorName [⟨"Unknown".data, 9, 9, 9⟩] 0 0 0 = "Unknown".data ∧
      ([(⟨"Unknown".data, 9, 9, 9⟩ : NamedColor)] : List NamedColor) ≠ [] := by
  exact ⟨by decide, by decide⟩

/-! ## C4: extractor/serializer round trip — scanner lemmas -/

theorem dropWhile_cons_append {p : Char → Bool} {l s r : List Char} {c : Char}
    (h : l.dropWhile p = c :: s) : (l ++ r).dropWhile p = c :: (s ++ r) := by
  induction l with
  | nil => simp at h
  | cons a l ih =>
      by_cases hp : p a = true
      · rw [List.dropWhile_cons_of_pos hp] at h
        rw [List.cons_append, List.dropWhile_cons_of_pos hp]
        exact ih h
      · rw [List.dropWhile_cons_of_neg (by simp [hp])] at h
        rw [List.cons_append, List.dropWhile_cons_of_neg (by simp [hp])]
        obtain ⟨rfl, rfl⟩ : a = c ∧ l = s := by
          have h1 := List.cons.injEq a l c s ▸ h
          exact ⟨(List.cons.inj h).1, (List.cons.inj h).2⟩
        rfl

theorem takeWhile_append_of_dropWhile_cons {p : Char → Bool} {l r : List Char}
    {c : Char} {s : List Char} (h : l.dropWhile p = c :: s) :
    (l ++ r).takeWhile p = l.takeWhile p := by
  induction l with
  | nil => simp at h
  | cons a l ih =>
      by_cases hp : p a = true
      · rw [List.dropWhile_cons_of_pos hp] at h
        rw [List.cons_append, List.takeWhile_cons_of_pos hp, List.takeWhile_cons_of_pos hp,
          ih h]
      · rw [List.cons_append, List.takeWhile_cons_of_neg (by simp [hp]),
          List.takeWhile_cons_of_neg (by simp [hp])]

/-- Stability of a match stage under extending the input on the right:
a definite match or definite mismatch is preserved. -/
def StageStab (f : List Char → MRes α) : Prop :=
  (∀ l r a rest, f l = .found a rest → f (l ++ r) = .found a (rest ++ r)) ∧
    (∀ l r, f l = .nomatch → f (l ++ r) = .nomatch)

theorem andThen_stab {f : List Char → MRes α} {g : α → List Char → MRes β}
    (hf : StageStab f) (hg : ∀ a, StageStab (g a)) :
    StageStab (fun l => (f l).andThen g) := by
  constructor
  · intro l r b rest h
    have h2 : (f l).andThen g = MRes.found b rest := h
    show (f (l ++ r)).andThen g = MRes.found b (rest ++ r)
    rcases hfl : f l with ⟨a, m⟩ | _ | _ <;> rw [hfl] at h2
    · simp only [MRes.andThen] at h2
      rw [hf.1 l r a m hfl]
      simp only [MRes.andThen]
      exact (hg a).1 m r b rest h2
    · exact absurd h2 (by simp [MRes.andThen])
    · exact absurd h2 (by simp [MRes.andThen])
  · intro l r h
    have h2 : (f l).andThen g = MRes.nomatch := h
    show (f (l ++ r)).andThen g = MRes.nomatch
    rcases hfl : f l with ⟨a, m⟩ | _ | _ <;> rw [hfl] at h2
    · simp only [MRes.andThen] at h2
      rw [hf.1 l r a m hfl]
      simp only [MRes.andThen]
      exact (hg a).2 m r h2
    · rw [hf.2 l r hfl]
      simp [MRes.andThen]
    · exact absurd h2 (by simp [MRes.andThen])

theorem pure_stab (a : α) : StageStab (fun l => (MRes.found a l : MRes α)) := by
  constructor
  · intro l r b rest h
    obtain ⟨rfl, rfl⟩ : b = a ∧ rest = l := by
      cases h; exact ⟨rfl, rfl⟩
    rfl
  · intro l r h
    cases h

theorem litStage_stab (pat : List Char) : StageStab (litStage pat) := by
  induction pat with
  | nil =>
      constructor
      · intro l r a rest h
        obtain ⟨rfl⟩ : rest = l := by cases h; rfl
        rfl
      · intro l r h; cases h
  | cons p ps ih =>
      constructor
      · intro l r a rest h
        rcases l with _ | ⟨c, cs⟩
        · cases h
        · rw [List.cons_append]
          show (if c = p then litStage ps (cs ++ r) else .nomatch) = _
          by_cases hc : c = p
          · rw [if_pos hc]
            rw [show litStage (p :: ps) (c :: cs) =
              (if c = p then litStage ps cs else .nomatch) from rfl, if_pos hc] at h
            exact ih.1 cs r a rest h
          · rw [show litStage (p :: ps) (c :: cs) =
              (if c = p then litStage ps cs else .nomatch) from rfl, if_neg hc] at h
            cases h
      · intro l r h
        rcases l with _ | ⟨c, cs⟩
        · cases h
        · rw [List.cons_append]
          show (if c = p then litStage ps (cs ++ r) else .nomatch) = _
          by_cases hc : c = p
          · rw [if_pos hc]
            rw [show litStage (p :: ps) (c :: cs) =
              (if c = p then litStage ps cs else .nomatch) from rfl, if_pos hc] at h
            exact ih.2 cs r h
          · rw [if_neg hc]

theorem wsThen_stab (t : Char) : StageStab (wsThen t) := by
  constructor
  · intro l r a rest h
    unfold wsThen at h ⊢
    rcases hd : l.dropWhile pyWs with _ | ⟨c, cs⟩ <;> rw [hd] at h
    · cases h
    · rw [dropWhile_cons_append hd]
      have h2 : (if c = t then MRes.found () cs else MRes.nomatch) = MRes.found a rest := h
      show (if c = t then MRes.found () (cs ++ r) else MRes.nomatch) = _
      by_cases hc : c = t
      · rw [if_pos hc] at h2
        obtain ⟨rfl, rfl⟩ : a = () ∧ rest = cs := by cases h2; exact ⟨rfl, rfl⟩
        rw [if_pos hc]
      · rw [if_neg hc] at h2; cases h2
  · intro l r h
    unfold wsThen at h ⊢
    rcases hd : l.dropWhile pyWs with _ | ⟨c, cs⟩ <;> rw [hd] at h
    · cases h
    · rw [dropWhile_cons_append hd]
      have h2 : (if c = t then MRes.found () cs else MRes.nomatch) = MRes.nomatch := h
      show (if c = t then MRes.found () (cs ++ r) else MRes.nomatch) = _
      by_cases hc : c = t
      · rw [if_pos hc] at h2; cases h2
      · rw [if_neg hc]

theorem plusThen_stab (p : Char → Bool) (t : Char) : StageStab (plusThen p t) := by
  constructor
  · intro l r a rest h
    unfold plusThen at h ⊢
    rcases hd : l.dropWhile p with _ | ⟨c, cs⟩ <;> rw [hd] at h
    · cases h
    · rw [dropWhile_cons_append hd, takeWhile_append_of_dropWhile_cons hd]
      have h2 : (if (l.takeWhile p).isEmpty = true then MRes.nomatch
          else if c = t then MRes.found (l.takeWhile p) cs else MRes.nomatch) =
          MRes.found a rest := h
      show (if (l.takeWhile p).isEmpty = true then MRes.nomatch
        else if c = t then MRes.found (l.takeWhile p) (cs ++ r) else MRes.nomatch) = _
      by_cases he : (l.takeWhile p).isEmpty = true
      · rw [if_pos he] at h2; cases h2
      · rw [if_neg he] at h2
        rw [if_neg he]
        by_cases hc : c = t
        · rw [if_pos hc] at h2
          obtain ⟨rfl, rfl⟩ : a = l.takeWhile p ∧ rest = cs := by
            cases h2; exact ⟨rfl, rfl⟩
          rw [if_pos hc]
        · rw [if_neg hc] at h2; cases h2
  · intro l r h
    unfold plusThen at h ⊢
    rcases hd : l.dropWhile p with _ | ⟨c, cs⟩ <;> rw [hd] at h
    · cases h
    · rw [dropWhile_cons_append hd, takeWhile_append_of_dropWhile_cons hd]
      have h2 : (if (l.takeWhile p).isEmpty = true then MRes.nomatch
          else if c = t then MRes.found (l.takeWhile p) cs else MRes.nomatch) =
          MRes.nomatch := h
      show (if (l.takeWhile p).isEmpty = true then MRes.nomatch
        else if c = t then MRes.found (l.takeWhile p) (cs ++ r) else MRes.nomatch) = _
      by_cases he : (l.takeWhile p).isEmpty = true
      · rw [if_pos he]
      · rw [if_neg he] at h2
        rw [if_neg he]
        by_cases hc : c = t
        · rw [if_pos hc] at h2; cases h2
        · rw [if_neg hc]

theorem numThen_eq (t : Char) (l : List Char) :
    numThen t l =
      match (l.dropWhile pyWs).dropWhile pyDigit with
      | [] => .eof
      | c :: cs =>
          if ((l.dropWhile pyWs).takeWhile pyDigit).isEmpty then .nomatch
          else
            match (c :: cs).dropWhile pyWs with
            | [] => .eof
            | c2 :: cs2 =>
                if c2 = t then .found (decVal ((l.dropWhile pyWs).takeWhile pyDigit)) cs2
                else .nomatch := rfl

theorem numThen_stab (t : Char) : StageStab (numThen t) := by
  have key : ∀ l r : List Char,
      (∀ a rest, numThen t l = .found a rest → numThen t (l ++ r) = .found a (rest ++ r)) ∧
      (numThen t l = .nomatch → numThen t (l ++ r) = .nomatch) := by
    intro l r
    rcases hl1 : l.dropWhile pyWs with _ | ⟨d, ds⟩
    · have h0 : numThen t l = .eof := by rw [numThen_eq, hl1]; rfl
      exact ⟨fun a rest h => (by rw [h0] at h; cases h), fun h => (by rw [h0] at h; cases h)⟩
    · have hl1' : (l ++ r).dropWhile pyWs = d :: (ds ++ r) := dropWhile_cons_append hl1
      rcases hd : (d :: ds).dropWhile pyDigit with _ | ⟨c, cs⟩
      · have h0 : numThen t l = .eof := by rw [numThen_eq, hl1, hd]
        exact ⟨fun a rest h => (by rw [h0] at h; cases h), fun h => (by rw [h0] at h; cases h)⟩
      · have hd' : (d :: (ds ++ r)).dropWhile pyDigit = c :: (cs ++ r) := by
          have := dropWhile_cons_append (r := r) hd
          simpa using this
        have ht' : (d :: (ds ++ r)).takeWhile pyDigit = (d :: ds).takeWhile pyDigit := by
          have := takeWhile_append_of_dropWhile_cons (r := r) hd
          simpa using this
        by_cases he : ((d :: ds).takeWhile pyDigit).isEmpty = true
        · have h0 : numThen t l = .nomatch := by
            rw [numThen_eq, hl1, hd]
            show (if ((d :: ds).takeWhile pyDigit).isEmpty = true then MRes.nomatch
              else _) = _
            rw [if_pos he]
          have h0' : numThen t (l ++ r) = .nomatch := by
            rw [numThen_eq, hl1', hd']
            show (if ((d :: (ds ++ r)).takeWhile pyDigit).isEmpty = true then MRes.nomatch
              else _) = _
            rw [ht', if_pos he]
          exact ⟨fun a rest h => (by rw [h0] at h; cases h), fun _ => h0'⟩
        · rcases hd2 : (c :: cs).dropWhile pyWs with _ | ⟨c2, cs2⟩
          · have h0 : numThen t l = .eof := by
              rw [numThen_eq, hl1, hd]
              show (if ((d :: ds).takeWhile pyDigit).isEmpty = true then MRes.nomatch
                else match (c :: cs).dropWhile pyWs with
                  | [] => MRes.eof
                  | c2 :: cs2 => if c2 = t
                      then MRes.found (decVal ((d :: ds).takeWhile pyDigit)) cs2
                      else MRes.nomatch) = _
              rw [if_neg he, hd2]
            exact ⟨fun a rest h => (by rw [h0] at h; cases h),
              fun h => (by rw [h0] at h; cases h)⟩
          · have hd2' : (c :: (cs ++ r)).dropWhile pyWs = c2 :: (cs2 ++ r) := by
              have := dropWhile_cons_append (r := r) hd2
              simpa using this
            by_cases hc : c2 = t
            · have h0 : numThen t l =
                  .found (decVal ((d :: ds).takeWhile pyDigit)) cs2 := by
                rw [numThen_eq, hl1, hd]
                show (if ((d :: ds).takeWhile pyDigit).isEmpty = true then MRes.nomatch
                  else match (c :: cs).dropWhile pyWs with
                    | [] => MRes.eof
                    | c2 :: cs2 => if c2 = t
                        then MRes.found (decVal ((d :: ds).takeWhile pyDigit)) cs2
                        else MRes.nomatch) = _
                rw [if_neg he, hd2]
                show (if c2 = t then _ else MRes.nomatch) = _
                rw [if_pos hc]
              have h0' : numThen t (l ++ r) =
                  .found (decVal ((d :: ds).takeWhile pyDigit)) (cs2 ++ r) := by
                rw [numThen_eq, hl1', hd']
                show (if ((d :: (ds ++ r)).takeWhile pyDigit).isEmpty = true then MRes.nomatch
                  else match (c :: (cs ++ r)).dropWhile pyWs with
                    | [] => MRes.eof
                    | c2 :: cs2 => if c2 = t
                        then MRes.found (decVal ((d :: (ds ++ r)).takeWhile pyDigit)) cs2
                        else MRes.nomatch) = _
                rw [ht', if_neg he, hd2']
                show (if c2 = t then _ else MRes.nomatch) = _
                rw [if_pos hc]
              refine ⟨fun a rest h => ?_, fun h => (by rw [h0] at h; cases h)⟩
              rw [h0] at h
              obtain ⟨rfl, rfl⟩ : a = decVal ((d :: ds).takeWhile pyDigit) ∧ rest = cs2 := by
                cases h; exact ⟨rfl, rfl⟩
              exact h0'
            · have h0 : numThen t l = .nomatch := by
                rw [numThen_eq, hl1, hd]
                show (if ((d :: ds).takeWhile pyDigit).isEmpty = true then MRes.nomatch
                  else match (c :: cs).dropWhile pyWs with
                    | [] => MRes.eof
                    | c2 :: cs2 => if c2 = t
                        then MRes.found (decVal ((d :: ds).takeWhile pyDigit)) cs2
                        else MRes.nomatch) = _
                rw [if_neg he, hd2]
                show (if c2 = t then _ else MRes.nomatch) = _
                rw [if_neg hc]
              have h0' : numThen t (l ++ r) = .nomatch := by
                rw [numThen_eq, hl1', hd']
                show (if ((d :: (ds ++ r)).takeWhile pyDigit).isEmpty = true then MRes.nomatch
                  else match (c :: (cs ++ r)).dropWhile pyWs with
                    | [] => MRes.eof
                    | c2 :: cs2 => if c2 = t
                        then MRes.found (decVal ((d :: (ds ++ r)).takeWhile pyDigit)) cs2
                        else MRes.nomatch) = _
                rw [ht', if_neg he, hd2']
                show (if c2 = t then _ else MRes.nomatch) = _
                rw [if_neg hc]
              exact ⟨fun a rest h => (by rw [h0] at h; cases h), fun _ => h0'⟩
  exact ⟨fun l r a rest h => (key l r).1 a rest h, fun l r h => (key l r).2 h⟩

/-- Stability of the whole anchored pattern attempt. -/
theorem matchAttempt_stab : StageStab matchAttempt :=
  andThen_stab (litStage_stab ("NamedColor".data)) (fun _ =>
    andThen_stab (wsThen_stab '(') (fun _ =>
      andThen_stab (wsThen_stab '"') (fun _ =>
        andThen_stab (plusThen_stab (fun c => c != '"') '"') (fun nm =>
          andThen_stab (wsThen_stab ',') (fun _ =>
            andThen_stab (numThen_stab ',') (fun rv =>
              andThen_stab (numThen_stab ',') (fun gv =>
                andThen_stab (numThen_stab ')') (fun bv =>
                  pure_stab (nm, rv, gv, bv)))))))))

/-! ## Length bounds for the scanner -/

theorem dropWhile_length_le (p : Char → Bool) (l : List Char) :
    (l.dropWhile p).length ≤ l.length := by
  induction l with
  | nil => simp
  | cons a l ih =>
      by_cases hp : p a = true
      · rw [List.dropWhile_cons_of_pos hp]
        exact le_trans ih (by simp)
      · rw [List.dropWhile_cons_of_neg (by simp [hp])]

theorem litStage_found_le {pat l rest : List Char}
    (h : litStage pat l = .found () rest) : rest.length + pat.length ≤ l.length := by
  induction pat generalizing l with
  | nil =>
      obtain ⟨rfl⟩ : rest = l := by cases h; rfl
      simp
  | cons p ps ih =>
      rcases l with _ | ⟨c, cs⟩
      · cases h
      · rw [show litStage (p :: ps) (c :: cs) =
          (if c = p then litStage ps cs else .nomatch) from rfl] at h
        by_cases hc : c = p
        · rw [if_pos hc] at h
          have := ih h
          simp only [List.length_cons]
          omega
        · rw [if_neg hc] at h; cases h

theorem wsThen_found_le {t : Char} {l rest : List Char}
    (h : wsThen t l = .found () rest) : rest.length < l.length := by
  unfold wsThen at h
  rcases hd : l.dropWhile pyWs with _ | ⟨c, cs⟩ <;> rw [hd] at h
  · cases h
  · replace h : (if c = t then MRes.found () cs else MRes.nomatch) = MRes.found () rest := h
    by_cases hc : c = t
    · rw [if_pos hc] at h
      obtain ⟨rfl⟩ : rest = cs := by cases h; rfl
      have h1 := dropWhile_length_le pyWs l
      rw [hd] at h1
      simp only [List.length_cons] at h1
      omega
    · rw [if_neg hc] at h; cases h

theorem plusThen_found_le {p : Char → Bool} {t : Char} {l : List Char} {cap rest : List Char}
    (h : plusThen p t l = .found cap rest) : rest.length < l.length := by
  unfold plusThen at h
  rcases hd : l.dropWhile p with _ | ⟨c, cs⟩ <;> rw [hd] at h
  · cases h
  · replace h : (if (l.takeWhile p).isEmpty = true then MRes.nomatch
        else if c = t then MRes.found (l.takeWhile p) cs else MRes.nomatch) =
        MRes.found cap rest := h
    by_cases he : (l.takeWhile p).isEmpty = true
    · rw [if_pos he] at h; cases h
    · rw [if_neg he] at h
      by_cases hc : c = t
      · rw [if_pos hc] at h
        obtain ⟨rfl, rfl⟩ : cap = l.takeWhile p ∧ rest = cs := by cases h; exact ⟨rfl, rfl⟩
        have h1 := dropWhile_length_le p l
        rw [hd] at h1
        simp only [List.length_cons] at h1
        omega
      · rw [if_neg hc] at h; cases h

theorem numThen_found_le {t : Char} {l : List Char} {v : Nat} {rest : List Char}
    (h : numThen t l = .found v rest) : rest.length < l.length := by
  rw [numThen_eq] at h
  rcases hd : (l.dropWhile pyWs).dropWhile pyDigit with _ | ⟨c, cs⟩ <;> rw [hd] at h
  · cases h
  · replace h : (if ((l.dropWhile pyWs).takeWhile pyDigit).isEmpty = true then MRes.nomatch
        else match (c :: cs).dropWhile pyWs with
          | [] => MRes.eof
          | c2 :: cs2 => if c2 = t
              then MRes.found (decVal ((l.dropWhile pyWs).takeWhile pyDigit)) cs2
              else MRes.nomatch) = MRes.found v rest := h
    by_cases he : ((l.dropWhile pyWs).takeWhile pyDigit).isEmpty = true
    · rw [if_pos he] at h; cases h
    · rw [if_neg he] at h
      rcases hd2 : (c :: cs).dropWhile pyWs with _ | ⟨c2, cs2⟩ <;> rw [hd2] at h
      · cases h
      · replace h : (if c2 = t
            then MRes.found (decVal ((l.dropWhile pyWs).takeWhile pyDigit)) cs2
            else MRes.nomatch) = MRes.found v rest := h
        by_cases hc : c2 = t
        · rw [if_pos hc] at h
          obtain ⟨rfl⟩ : rest = cs2 := by cases h; rfl
          have h1 := dropWhile_length_le pyWs (c :: cs)
          rw [hd2] at h1
          have h2 := dropWhile_length_le pyDigit (l.dropWhile pyWs)
          rw [hd] at h2
          have h3 := dropWhile_length_le pyWs l
          simp only [List.length_cons] at h1 h2
          omega
        · rw [if_neg hc] at h; cases h

theorem matchAttempt_found_lt {l : List Char} {e : List Char × Nat × Nat × Nat}
    {rest : List Char} (h : matchAttempt l = .found e rest) : rest.length < l.length := by
  have h2 : (litStage ("NamedColor".data) l).andThen (fun _ l1 =>
    (wsThen '(' l1).andThen fun _ l2 =>
    (wsThen '"' l2).andThen fun _ l3 =>
    (plusThen (fun c => c != '"') '"' l3).andThen fun nm l4 =>
    (wsThen ',' l4).andThen fun _ l5 =>
    (numThen ',' l5).andThen fun rv l6 =>
    (numThen ',' l6).andThen fun gv l7 =>
    (numThen ')' l7).andThen fun bv l8 =>
    .found (nm, rv, gv, bv) l8) = .found e rest := h
  rcases h1 : litStage ("NamedColor".data) l with ⟨u1, l1⟩ | _ | _ <;>
    rw [h1] at h2 <;> simp only [MRes.andThen] at h2 <;> try cases h2
  rcases hw1 : wsThen '(' l1 with ⟨u2, l2⟩ | _ | _ <;>
    rw [hw1] at h2 <;> simp only [MRes.andThen] at h2 <;> try cases h2
  rcases hw2 : wsThen '"' l2 with ⟨u3, l3⟩ | _ | _ <;>
    rw [hw2] at h2 <;> simp only [MRes.andThen] at h2 <;> try cases h2
  rcases hp1 : plusThen (fun c => c != '"') '"' l3 with ⟨nm, l4⟩ | _ | _ <;>
    rw [hp1] at h2 <;> simp only [MRes.andThen] at h2 <;> try cases h2
  rcases hw3 : wsThen ',' l4 with ⟨u4, l5⟩ | _ | _ <;>
    rw [hw3] at h2 <;> simp only [MRes.andThen] at h2 <;> try cases h2
  rcases hn1 : numThen ',' l5 with ⟨rv, l6⟩ | _ | _ <;>
    rw [hn1] at h2 <;> simp only [MRes.andThen] at h2 <;> try cases h2
  rcases hn2 : numThen ',' l6 with ⟨gv, l7⟩ | _ | _ <;>
    rw [hn2] at h2 <;> simp only [MRes.andThen] at h2 <;> try cases h2
  rcases hn3 : numThen ')' l7 with ⟨bv, l8⟩ | _ | _ <;>
    rw [hn3] at h2 <;> simp only [MRes.andThen] at h2 <;> try cases h2
  have q1 := litStage_found_le (by cases u1; exact h1)
  have q2 := wsThen_found_le (by cases u2; exact hw1)
  have q3 := wsThen_found_le (by cases u3; exact hw2)
  have q4 := plusThen_found_le hp1
  have q5 := wsThen_found_le (by cases u4; exact hw3)
  have q6 := numThen_found_le hn1
  have q7 := numThen_found_le hn2
  have q8 := numThen_found_le hn3
  have hpat : ("NamedColor".data).length = 10 := rfl
  omega

/-! ## Scan lemmas -/

theorem matchAttempt_nil : matchAttempt [] = .eof := rfl

theorem scanAux_fuel :
    ∀ (f : Nat) (l : List Char), l.length ≤ f → scanAux f l = scanAux l.length l := by
  intro f
  induction f using Nat.strong_induction_on with
  | _ f ih =>
      intro l hl
      match f with
      | 0 =>
          have h0 : l = [] := List.length_eq_zero.mp (by omega)
          subst h0
          rfl
      | k + 1 =>
          rcases hm : matchAttempt l with ⟨e, t⟩ | _ | _
          · rcases l with _ | ⟨c, cs⟩
            · rw [matchAttempt_nil] at hm; cases hm
            · have hlt := matchAttempt_found_lt hm
              simp only [List.length_cons] at hlt hl
              have e1 : scanAux (k + 1) (c :: cs) = toEntry e :: scanAux k t := by
                show (match matchAttempt (c :: cs) with
                  | .found e t => toEntry e :: scanAux k t
                  | _ => match c :: cs with
                    | [] => []
                    | _ :: cs2 => scanAux k cs2) = _
                rw [hm]
              have e2 : scanAux (cs.length + 1) (c :: cs) = toEntry e :: scanAux cs.length t := by
                show (match matchAttempt (c :: cs) with
                  | .found e t => toEntry e :: scanAux cs.length t
                  | _ => match c :: cs with
                    | [] => []
                    | _ :: cs2 => scanAux cs.length cs2) = _
                rw [hm]
              rw [e1, show (c :: cs).length = cs.length + 1 from rfl, e2,
                ih k (by omega) t (by omega), ih cs.length (by omega) t (by omega)]
          · rcases l with _ | ⟨c, cs⟩
            · rfl
            · have e1 : scanAux (k + 1) (c :: cs) = scanAux k cs := by
                show (match matchAttempt (c :: cs) with
                  | .found e t => toEntry e :: scanAux k t
                  | _ => match c :: cs with
                    | [] => []
                    | _ :: cs2 => scanAux k cs2) = _
                rw [hm]
              have e2 : scanAux (cs.length + 1) (c :: cs) = scanAux cs.length cs := by
                show (match matchAttempt (c :: cs) with
                  | .found e t => toEntry e :: scanAux cs.length t
                  | _ => match c :: cs with
                    | [] => []
                    | _ :: cs2 => scanAux cs.length cs2) = _
                rw [hm]
              simp only [List.length_cons] at hl
              rw [e1, show (c :: cs).length = cs.length + 1 from rfl, e2,
                ih k (by omega) cs (by omega)]
          · rcases l with _ | ⟨c, cs⟩
            · rfl
            · have e1 : scanAux (k + 1) (c :: cs) = scanAux k cs := by
                show (match matchAttempt (c :: cs) with
                  | .found e t => toEntry e :: scanAux k t
                  | _ => match c :: cs with
                    | [] => []
                    | _ :: cs2 => scanAux k cs2) = _
                rw [hm]
              have e2 : scanAux (cs.length + 1) (c :: cs) = scanAux cs.length cs := by
                show (match matchAttempt (c :: cs) with
                  | .found e t => toEntry e :: scanAux cs.length t
                  | _ => match c :: cs with
                    | [] => []
                    | _ :: cs2 => scanAux cs.length cs2) = _
                rw [hm]
              simp only [List.length_cons] at hl
              rw [e1, show (c :: cs).length = cs.length + 1 from rfl, e2,
                ih k (by omega) cs (by omega)]

theorem extract_cons_skip {c : Char} {l : List Char}
    (hm : matchAttempt (c :: l) = .nomatch) : extract (c :: l) = extract l := by
  show scanAux (c :: l).length (c :: l) = extract l
  rw [show (c :: l).length = l.length + 1 from rfl]
  show (match matchAttempt (c :: l) with
    | .found e t => toEntry e :: scanAux l.length t
    | _ => match c :: l with
      | [] => []
      | _ :: cs2 => scanAux l.length cs2) = _
  rw [hm]
  rfl

theorem extract_found {l t : List Char} {e : List Char × Nat × Nat × Nat}
    (hm : matchAttempt l = .found e t) : extract l = toEntry e :: extract t := by
  rcases l with _ | ⟨c, cs⟩
  · rw [matchAttempt_nil] at hm; cases hm
  · have hlt := matchAttempt_found_lt hm
    show scanAux (c :: cs).length (c :: cs) = _
    rw [show (c :: cs).length = cs.length + 1 from rfl]
    have e1 : scanAux (cs.length + 1) (c :: cs) = toEntry e :: scanAux cs.length t := by
      show (match matchAttempt (c :: cs) with
        | .found e t => toEntry e :: scanAux cs.length t
        | _ => match c :: cs with
          | [] => []
          | _ :: cs2 => scanAux cs.length cs2) = _
      rw [hm]
    rw [e1]
    simp only [List.length_cons] at hlt
    rw [scanAux_fuel cs.length t (by omega)]
    rfl

/-- Whether the anchored attempt at this position is a definite mismatch. -/
def failsAt (l : List Char) : Bool :=
  match matchAttempt l with
  | .nomatch => true
  | _ => false

/-- Every position of this text is a definite mismatch. -/
def allSuffixesFail : List Char → Bool
  | [] => true
  | c :: cs => failsAt (c :: cs) && allSuffixesFail cs

theorem failsAt_eq {l : List Char} (h : failsAt l = true) : matchAttempt l = .nomatch := by
  unfold failsAt at h
  rcases hm : matchAttempt l with _ | _ | _ <;> rw [hm] at h
  all_goals first
  | rfl
  | (have h2 : false = true := h
     cases h2)

/-- Text whose every suffix is a definite mismatch is transparent to the
scan, whatever follows it. -/
theorem extract_append_transparent :
    ∀ {h : List Char}, allSuffixesFail h = true →
      ∀ (rest : List Char), extract (h ++ rest) = extract rest := by
  intro h
  induction h with
  | nil => intro _ rest; rfl
  | cons c cs ih =>
      intro hall rest
      simp only [allSuffixesFail, Bool.and_eq_true] at hall
      have hm : matchAttempt ((c :: cs) ++ rest) = .nomatch :=
        matchAttempt_stab.2 (c :: cs) rest (failsAt_eq hall.1)
      rw [List.cons_append] at hm ⊢
      rw [extract_cons_skip hm]
      exact ih hall.2 rest

/-! ## Computing the match on a serialized entry -/

theorem litStage_self : ∀ (pat rest : List Char), litStage pat (pat ++ rest) = .found () rest := by
  intro pat
  induction pat with
  | nil => intro rest; rfl
  | cons p ps ih =>
      intro rest
      show (if p = p then litStage ps (ps ++ rest) else .nomatch) = _
      rw [if_pos rfl, ih rest]

theorem wsThen_here {t : Char} {m : List Char} (ht : pyWs t = false) :
    wsThen t (t :: m) = .found () m := by
  unfold wsThen
  rw [List.dropWhile_cons_of_neg (by simp [ht])]
  show (if t = t then MRes.found () m else MRes.nomatch) = _
  rw [if_pos rfl]

theorem takeWhile_until {p : Char → Bool} {a m : List Char} {c : Char}
    (ha : ∀ x ∈ a, p x = true) (hc : p c = false) :
    (a ++ c :: m).takeWhile p = a ∧ (a ++ c :: m).dropWhile p = c :: m := by
  induction a with
  | nil =>
      constructor
      · rw [List.nil_append, List.takeWhile_cons_of_neg (by simp [hc])]
      · rw [List.nil_append, List.dropWhile_cons_of_neg (by simp [hc])]
  | cons x a ih =>
      have hx : p x = true := ha x (by simp)
      obtain ⟨ih1, ih2⟩ := ih (fun y hy => ha y (by simp [hy]))
      constructor
      · rw [List.cons_append, List.takeWhile_cons_of_pos hx, ih1]
      · rw [List.cons_append, List.dropWhile_cons_of_pos hx, ih2]

theorem plusThen_compute {p : Char → Bool} {t : Char} {a m : List Char}
    (hne : a ≠ []) (ha : ∀ x ∈ a, p x = true) (hct : p t = false) :
    plusThen p t (a ++ t :: m) = .found a m := by
  obtain ⟨htake, hdrop⟩ := takeWhile_until ha hct
  unfold plusThen
  rw [hdrop, htake]
  show (if a.isEmpty = true then MRes.nomatch
    else if t = t then MRes.found a m else MRes.nomatch) = _
  rw [if_neg (by simp [List.isEmpty_iff, hne]), if_pos rfl]

theorem pyDigit_not_ws {c : Char} (h : pyDigit c = true) : pyWs c = false := by
  simp only [pyDigit, Bool.and_eq_true, decide_eq_true_eq] at h
  simp only [pyWs, Bool.or_eq_true, decide_eq_true_eq]
  simp only [Bool.or_eq_false_iff, decide_eq_false_iff_not]
  omega

theorem numThen_compute {t : Char} {ds m : List Char}
    (hne : ds ≠ []) (hds : ∀ c ∈ ds, pyDigit c = true)
    (htd : pyDigit t = false) (htw : pyWs t = false) :
    numThen t (' ' :: (ds ++ t :: m)) = .found (decVal ds) m := by
  rcases ds with _ | ⟨d0, ds'⟩
  · exact absurd rfl hne
  have hd0 : pyDigit d0 = true := hds d0 (by simp)
  have hl1 : (' ' :: ((d0 :: ds') ++ t :: m)).dropWhile pyWs = (d0 :: ds') ++ t :: m := by
    rw [List.dropWhile_cons_of_pos (by decide), List.cons_append,
      List.dropWhile_cons_of_neg (by simp [pyDigit_not_ws hd0]), ← List.cons_append]
  obtain ⟨htake, hdrop⟩ := takeWhile_until (p := pyDigit) (m := m) hds htd
  rw [numThen_eq, hl1, hdrop]
  show (if ((d0 :: ds' ++ t :: m).takeWhile pyDigit).isEmpty = true then MRes.nomatch
    else match (t :: m).dropWhile pyWs with
      | [] => MRes.eof
      | c2 :: cs2 => if c2 = t
          then MRes.found (decVal ((d0 :: ds' ++ t :: m).takeWhile pyDigit)) cs2
          else MRes.nomatch) = _
  rw [htake, if_neg (by simp [List.isEmpty_iff]),
    List.dropWhile_cons_of_neg (by simp [htw])]
  show (if t = t then MRes.found (decVal (d0 :: ds')) m else MRes.nomatch) = _
  rw [if_pos rfl]

/-- The anchored pattern consumes exactly one serialized entry body and
captures its fields. -/
theorem matchAttempt_entry
    {nm ds1 ds2 ds3 rest : List Char}
    (hnm : nm ≠ []) (hq : ∀ c ∈ nm, (c != '"') = true)
    (hd1 : ds1 ≠ []) (ha1 : ∀ c ∈ ds1, pyDigit c = true)
    (hd2 : ds2 ≠ []) (ha2 : ∀ c ∈ ds2, pyDigit c = true)
    (hd3 : ds3 ≠ []) (ha3 : ∀ c ∈ ds3, pyDigit c = true) :
    matchAttempt (("NamedColor".data) ++ ('(' :: '"' ::
        (nm ++ ('"' :: ',' :: ' ' ::
          (ds1 ++ (',' :: ' ' :: (ds2 ++ (',' :: ' ' :: (ds3 ++ (')' :: rest)))))))))) =
      .found (nm, decVal ds1, decVal ds2, decVal ds3) rest := by
  unfold matchAttempt
  rw [litStage_self]
  simp only [MRes.andThen]
  rw [wsThen_here (by decide)]
  simp only [MRes.andThen]
  rw [wsThen_here (by decide)]
  simp only [MRes.andThen]
  rw [plusThen_compute hnm hq (by decide)]
  simp only [MRes.andThen]
  rw [wsThen_here (by decide)]
  simp only [MRes.andThen]
  rw [numThen_compute hd1 ha1 (by decide) (by decide)]
  simp only [MRes.andThen]
  rw [numThen_compute hd2 ha2 (by decide) (by decide)]
  simp only [MRes.andThen]
  rw [numThen_compute hd3 ha3 (by decide) (by decide)]

/-! ## Decimal rendering facts and the serialized-line shape -/

theorem natDec_byte_fin :
    ∀ v : Fin 256, (natDec v.val ≠ [] ∧ decVal (natDec v.val) = v.val) ∧
      ∀ c ∈ natDec v.val, pyDigit c = true := by decide

theorem natDec_byte {v : Nat} (h : v ≤ 255) :
    natDec v ≠ [] ∧ decVal (natDec v) = v ∧ ∀ c ∈ natDec v, pyDigit c = true := by
  have h2 := natDec_byte_fin ⟨v, by omega⟩
  exact ⟨h2.1.1, h2.1.2, h2.2⟩

theorem intDec_nonneg {i : Int} (h : 0 ≤ i) : intDec i = natDec i.toNat := by
  unfold intDec
  rw [if_neg (not_lt.mpr h)]

theorem safeName_id (s : List Char) : safeName s = s := by
  induction s with
  | nil => rfl
  | cons c cs ih =>
      show (if c = '"' then '"' else c) :: safeName cs = c :: cs
      rw [ih]
      congr 1
      split_ifs with h
      · exact h.symm
      · rfl

theorem entryLine_append (e : NamedColor) (tail : List Char)
    (hr : 0 ≤ e.r) (hg : 0 ≤ e.g) (hb : 0 ≤ e.b) :
    entryLine e ++ tail =
      ("        ".data) ++ (("NamedColor".data) ++ ('(' :: '"' ::
        (e.name ++ ('"' :: ',' :: ' ' ::
          (natDec e.r.toNat ++ (',' :: ' ' :: (natDec e.g.toNat ++ (',' :: ' ' ::
            (natDec e.b.toNat ++ (')' :: tail)))))))))) := by
  unfold entryLine
  rw [safeName_id, intDec_nonneg hr, intDec_nonneg hg, intDec_nonneg hb]
  have c1 : ("        NamedColor(\"".data) =
      ("        ".data) ++ ("NamedColor".data) ++ ['(', '"'] := rfl
  have c2 : ("\", ".data) = ['"', ',', ' '] := rfl
  have c3 : (", ".data) = [',', ' '] := rfl
  have c4 : (")".data) = [')'] := rfl
  rw [c1, c2, c3, c4]
  simp only [List.append_assoc, List.cons_append, List.nil_append]

set_option maxRecDepth 40000

theorem extract_footer : extract ('\n' :: footerStr.data) = [] := by decide

theorem header_transparent : allSuffixesFail (headerStr.data) = true := by decide

theorem spaces8_transparent : allSuffixesFail ("        ".data) = true := by decide

theorem sep_transparent : allSuffixesFail [',', '\n'] = true := by decide

/-- Scanning the serialized entry list followed by the footer recovers
exactly the catalog. -/
theorem extract_body :
    ∀ cat : List NamedColor,
      (∀ e ∈ cat, e.name ≠ [] ∧ (∀ c ∈ e.name, (c != '"') = true) ∧
        0 ≤ e.r ∧ e.r ≤ 255 ∧ 0 ≤ e.g ∧ e.g ≤ 255 ∧ 0 ≤ e.b ∧ e.b ≤ 255) →
      extract (joinLines (cat.map entryLine) ++ '\n' :: footerStr.data) = cat := by
  intro cat
  induction cat with
  | nil => intro _; exact extract_footer
  | cons e cat' ih =>
      intro hval
      obtain ⟨hne, hq, hr0, hr1, hg0, hg1, hb0, hb1⟩ := hval e (by simp)
      obtain ⟨hd1, hv1, ha1⟩ := natDec_byte (show e.r.toNat ≤ 255 by omega)
      obtain ⟨hd2, hv2, ha2⟩ := natDec_byte (show e.g.toNat ≤ 255 by omega)
      obtain ⟨hd3, hv3, ha3⟩ := natDec_byte (show e.b.toNat ≤ 255 by omega)
      rcases cat' with _ | ⟨e2, cat''⟩
      · have hjoin : joinLines ([e].map entryLine) = entryLine e := rfl
        rw [hjoin, entryLine_append e ('\n' :: footerStr.data) hr0 hg0 hb0,
          extract_append_transparent spaces8_transparent,
          extract_found (matchAttempt_entry hne hq hd1 ha1 hd2 ha2 hd3 ha3),
          extract_footer]
        show [(⟨e.name, ((decVal (natDec e.r.toNat) : Nat) : Int),
          ((decVal (natDec e.g.toNat) : Nat) : Int),
          ((decVal (natDec e.b.toNat) : Nat) : Int)⟩ : NamedColor)] = [e]
        rw [hv1, hv2, hv3, Int.toNat_of_nonneg hr0, Int.toNat_of_nonneg hg0,
          Int.toNat_of_nonneg hb0]
      · have hjoin : joinLines ((e :: e2 :: cat'').map entryLine) =
            entryLine e ++ ',' :: '\n' :: joinLines ((e2 :: cat'').map entryLine) := rfl
        rw [hjoin]
        rw [List.append_assoc, List.cons_append, List.cons_append]
        rw [entryLine_append e _ hr0 hg0 hb0,
          extract_append_transparent spaces8_transparent,
          extract_found (matchAttempt_entry hne hq hd1 ha1 hd2 ha2 hd3 ha3)]
        rw [show (',' :: '\n' :: (joinLines ((e2 :: cat'').map entryLine) ++
            '\n' :: footerStr.data)) =
          [',', '\n'] ++ (joinLines ((e2 :: cat'').map entryLine) ++
            '\n' :: footerStr.data) from rfl,
          extract_append_transparent sep_transparent,
          ih (fun x hx => hval x (List.mem_cons_of_mem e hx))]
        show (⟨e.name, ((decVal (natDec e.r.toNat) : Nat) : Int),
          ((decVal (natDec e.g.toNat) : Nat) : Int),
          ((decVal (natDec e.b.toNat) : Nat) : Int)⟩ : NamedColor) :: e2 :: cat'' =
          e :: e2 :: cat''
        rw [hv1, hv2, hv3, Int.toNat_of_nonneg hr0, Int.toNat_of_nonneg hg0,
          Int.toNat_of_nonneg hb0]

/-- C4.  Round trip, amended: extracting from the serialized artifact
returns exactly the catalog, in order, for every catalog whose entries
have a non-empty name CONTAINING NO double quote and components in
`[0,255]`.  The claim's "names containing double quotes are escaped and
preserved" is false: Python's `'\"'` equals `'"'`, so the replace is a
no-op, the quote ends the `"([^\"]+)"` capture early, and the entry is
lost entirely (see the counterexample). -/
theorem claim4_roundtrip :
    ∀ cat : List NamedColor,
      (∀ e ∈ cat, e.name ≠ [] ∧ (∀ c ∈ e.name, (c != '"') = true) ∧
        0 ≤ e.r ∧ e.r ≤ 255 ∧ 0 ≤ e.g ∧ e.g ≤ 255 ∧ 0 ≤ e.b ∧ e.b ≤ 255) →
      extract (fullContent cat) = cat := by
  intro cat hval
  unfold fullContent
  rw [List.append_assoc, extract_append_transparent header_transparent]
  exact extract_body cat hval

/-- C4 witness: the theorem applied to a concrete two-entry catalog. -/
theorem claim4_roundtrip_witness :
    (∀ e ∈ [(⟨"Hot Pink".data, 255, 105, 180⟩ : NamedColor), ⟨"Black".data, 0, 0, 0⟩],
        e.name ≠ [] ∧ (∀ c ∈ e.name, (c != '"') = true) ∧
          0 ≤ e.r ∧ e.r ≤ 255 ∧ 0 ≤ e.g ∧ e.g ≤ 255 ∧ 0 ≤ e.b ∧ e.b ≤ 255) ∧
      extract (fullContent [⟨"Hot Pink".data, 255, 105, 180⟩, ⟨"Black".data, 0, 0, 0⟩]) =
        [⟨"Hot Pink".data, 255, 105, 180⟩, ⟨"Black".data, 0, 0, 0⟩] :=
  ⟨by decide, claim4_roundtrip [⟨"Hot Pink".data, 255, 105, 180⟩, ⟨"Black".data, 0, 0, 0⟩]
    (by decide)⟩

/-- C4 counterexample: the valid, invariant-satisfying entry
`("a\"b", 1, 2, 3)` — non-empty name, components in range — does NOT
round-trip: the serializer's quote-escaping is a no-op, the embedded
quote breaks the extraction pattern, and extraction returns the empty
sequence. -/
theorem claim4_counterexample :
    extract (fullContent [⟨"a\"b".data, 1, 2, 3⟩]) = [] ∧
      ("a\"b".data ≠ []) ∧
      (∀ e ∈ [(⟨"a\"b".data, 1, 2, 3⟩ : NamedColor)],
        0 ≤ e.r ∧ e.r ≤ 255 ∧ 0 ≤ e.g ∧ e.g ≤ 255 ∧ 0 ≤ e.b ∧ e.b ≤ 255) ∧
      safeName ("a\"b".data) = "a\"b".data := by
  refine ⟨by decide, by decide, by decide, by decide⟩
